import Mathlib

/-!
Verification development for the geometry_simd library.

The numeric model is exact rational arithmetic: every `double` of the C++
source is embedded as a `ℚ`, every arithmetic instruction as the
corresponding field operation, and the decimal literal `1e-10` as
`1 / 10 ^ 10`.  The fused multiply-add / multiply-subtract intrinsics are
thereby identified with their unfused counterparts — both are exact over
`ℚ` — so the model cannot distinguish single-rounding fused sequences from
twice-rounded ones, and no theorem in this file certifies bit-level
agreement between the two; concrete evaluations involving the fused
kernels are only made at inputs whose binary64 arithmetic is exact.  Loops become folds or fuel-indexed structural
recursions; the fuel is always instantiated so that it provably never runs
out on the inputs the C++ code terminates on.
-/

namespace GeomSimd

/-- Structure-of-arrays polyline: two parallel coordinate lists
(`struct PolylineSoA` in `geom_simd.h`). -/
structure PolylineSoA where
  x : List ℚ
  y : List ℚ
deriving DecidableEq

namespace PolylineSoA

/-- `size()` — the number of points (the C++ method returns `x.size()`). -/
def size (p : PolylineSoA) : ℕ := p.x.length

/-- x coordinate of point `i` (`operator[]`, reading `x[i]`). -/
def ptX (p : PolylineSoA) (i : ℕ) : ℚ := p.x.getD i 0

/-- y coordinate of point `i` (`operator[]`, reading `y[i]`). -/
def ptY (p : PolylineSoA) (i : ℕ) : ℚ := p.y.getD i 0

/-- Point `i` as a coordinate pair (the `PointView` of `operator[]`). -/
def pt (p : PolylineSoA) (i : ℕ) : ℚ × ℚ := (p.ptX i, p.ptY i)

/-- `push_back(px, py)`. -/
def push_back (p : PolylineSoA) (px py : ℚ) : PolylineSoA :=
  ⟨p.x ++ [px], p.y ++ [py]⟩

/-- The initializer-list constructor: build the two coordinate arrays from a
list of points. -/
def ofPoints (l : List (ℚ × ℚ)) : PolylineSoA :=
  ⟨l.map Prod.fst, l.map Prod.snd⟩

/-- The polyline as the ordered list of its coordinate pairs. -/
def pts (p : PolylineSoA) : List (ℚ × ℚ) := p.x.zip p.y

end PolylineSoA

/-- `perpendicular_distance` from `simplify_internal.h`: squared perpendicular
distance of `(px, py)` from the chord `(x1, y1)`–`(x2, y2)`, falling back to
the squared distance to the chord start when the chord's squared length is
below `1e-10`. -/
def perpendicular_distance (px py x1 y1 x2 y2 : ℚ) : ℚ :=
  let dx := x2 - x1
  let dy := y2 - y1
  let mag_sq := dx * dx + dy * dy
  if mag_sq < 1 / 10 ^ 10 then
    let dpx := px - x1
    let dpy := py - y1
    dpx * dpx + dpy * dpy
  else
    let cross := (px - x1) * dy - (py - y1) * dx
    cross * cross / mag_sq

/-- Squared length of the chord joining points `s` and `e` of `L` (the
`mag_sq` value both kernels derive from the chord endpoints). -/
def chordMagSq (L : PolylineSoA) (s e : ℕ) : ℚ :=
  let dx := L.ptX e - L.ptX s
  let dy := L.ptY e - L.ptY s
  dx * dx + dy * dy

/-- The candidate distance the scalar kernel computes for index `i` against
the chord `(s, e)`: a direct call to `perpendicular_distance`. -/
def scalarDist (L : PolylineSoA) (s e i : ℕ) : ℚ :=
  perpendicular_distance (L.ptX i) (L.ptY i) (L.ptX s) (L.ptY s) (L.ptX e) (L.ptY e)

/-- The running `(max_dist_sq, max_idx)` update loop shared by every
maximum-distance search in the source: fold the candidate indices in program
order, replacing the running pair only on a strictly greater distance. -/
def searchFold (d : ℕ → ℚ) : List ℕ → ℚ × ℕ → ℚ × ℕ
  | [], acc => acc
  | k :: l, acc => searchFold d l (if d k > acc.1 then (d k, k) else acc)

/-- The maximum-distance scan of `douglas_peucker_recursive`
(`simplify_scalar.cpp`, the `for (size_t i = start + 1; i < end; ++i)` loop):
interior candidates are `start+1, …, end-1`, the accumulator starts at
`(0, start)`. -/
def search (L : PolylineSoA) (s e : ℕ) : ℚ × ℕ :=
  searchFold (scalarDist L s e) (List.range' (s + 1) (e - (s + 1))) (0, s)

/-- `douglas_peucker_recursive` from `simplify_scalar.cpp`, with an explicit
fuel parameter standing for the C++ call stack.  The keep bitmask is a
function `ℕ → Bool`; marking a point sets it to `true`.  With `0 ≤ τ` and
fuel at least `e - s` the fuel never runs out (see
`douglas_peucker_recursive_fuel_congr`), which matches the C++ code: its
recursion terminates whenever `tolerance_sq ≥ 0`, and `tolerance_sq` is
always a square. -/
def douglas_peucker_recursive :
    ℕ → PolylineSoA → ℕ → ℕ → ℚ → (ℕ → Bool) → (ℕ → Bool)
  | 0, _, _, _, _, keep => keep
  | fuel + 1, L, s, e, τ, keep =>
    if e ≤ s + 1 then keep
    else
      let r := search L s e
      if r.1 > τ then
        let keep1 : ℕ → Bool := fun k => if k = r.2 then true else keep k
        let keep2 := douglas_peucker_recursive fuel L s r.2 τ keep1
        douglas_peucker_recursive fuel L r.2 e τ keep2
      else keep

/-- The output-building loop shared by `simplify_scalar` and
`simplify_avx512`: push back, in index order, every input point whose keep
flag is set. -/
def buildResult (L : PolylineSoA) (keep : ℕ → Bool) : PolylineSoA :=
  let idxs := (List.range L.size).filter keep
  ⟨idxs.map L.ptX, idxs.map L.ptY⟩

/-- The initial keep mask of both kernels: first and last points marked. -/
def initKeep (n : ℕ) : ℕ → Bool :=
  fun i => decide (i = 0) || decide (i = n - 1)

/-- `simplify_scalar` from `simplify_scalar.cpp`. -/
def simplify_scalar (input : PolylineSoA) (tolerance : ℚ) : PolylineSoA :=
  if input.size ≤ 2 then input
  else
    let tolerance_sq := tolerance * tolerance
    let keep := douglas_peucker_recursive (input.size - 1) input 0
      (input.size - 1) tolerance_sq (initKeep input.size)
    buildResult input keep

/-- The per-lane candidate distance of the AVX-512 hot loop in
`rdpr_avx512`: `dist_sq = (cross * cross) / mag_sq`, with no degenerate-chord
branch (the vector path always divides by `mag_sq`). -/
def avxDist (L : PolylineSoA) (s e i : ℕ) : ℚ :=
  let dx := L.ptX e - L.ptX s
  let dy := L.ptY e - L.ptY s
  let mag_sq := dx * dx + dy * dy
  let cross := (L.ptX i - L.ptX s) * dy - (L.ptY i - L.ptY s) * dx
  cross * cross / mag_sq

/-- One `_mm512_mask_blend_pd` update of the lane-maximum vector `max_vec`:
lane `j` keeps the freshly computed distance of candidate `i + j` exactly
when it is strictly greater. -/
def avxBlockMV (d : ℕ → ℚ) (i : ℕ) (mv : Fin 8 → ℚ) : Fin 8 → ℚ :=
  fun j => if d (i + (j : ℕ)) > mv j then d (i + (j : ℕ)) else mv j

/-- `_mm512_reduce_max_pd`: horizontal maximum of the eight lanes. -/
def reduce8 (mv : Fin 8 → ℚ) : ℚ :=
  max (mv 0) (max (mv 1) (max (mv 2) (max (mv 3)
    (max (mv 4) (max (mv 5) (max (mv 6) (mv 7)))))))

/-- The vectorized hot loop of `rdpr_avx512` (`for (; i + 7 < end; i += 8)`),
with fuel: each iteration processes lanes `i, …, i+7`, blends the lane
maxima, and scans the stored distances in ascending lane order with the
strict-greater update.  Returns the final loop index together with the lane
maxima and the running `(max_dist_sq, max_idx)` pair. -/
def avxLoop (d : ℕ → ℚ) (e : ℕ) :
    ℕ → ℕ → (Fin 8 → ℚ) → ℚ × ℕ → ℕ × (Fin 8 → ℚ) × (ℚ × ℕ)
  | 0, i, mv, acc => (i, mv, acc)
  | fuel + 1, i, mv, acc =>
    if i + 7 < e then
      avxLoop d e fuel (i + 8) (avxBlockMV d i mv)
        (searchFold d (List.range' i 8) acc)
    else (i, mv, acc)

/-- The complete maximum-distance search of `rdpr_avx512`: the vector loop,
then the `_mm512_reduce_max_pd` overwrite of `max_dist_sq`, then the scalar
remainder loop (which calls `perpendicular_distance`). -/
def avxSearch (L : PolylineSoA) (s e : ℕ) : ℚ × ℕ :=
  let r := avxLoop (avxDist L s e) e e (s + 1) (fun _ => 0) (0, s)
  let if_ := r.1
  let maxd := reduce8 r.2.1
  searchFold (scalarDist L s e) (List.range' if_ (e - if_)) (maxd, r.2.2.2)

/-- The loop index at which the vector loop of `rdpr_avx512` hands over to
the scalar remainder loop. -/
def vecEnd (L : PolylineSoA) (s e : ℕ) : ℕ :=
  (avxLoop (avxDist L s e) e e (s + 1) (fun _ => 0) (0, s)).1

/-- The candidate distance `rdpr_avx512` actually uses for index `i`:
the vector-lane formula for indices covered by the hot loop, the scalar
`perpendicular_distance` for the remainder. -/
def avxUsedDist (L : PolylineSoA) (s e i : ℕ) : ℚ :=
  if i < vecEnd L s e then avxDist L s e i else scalarDist L s e i

/-- `rdpr_avx512` from the AVX-512 simplification translation unit, with
fuel standing for the C++ call stack (see `douglas_peucker_recursive`). -/
def rdpr_avx512 :
    ℕ → PolylineSoA → ℕ → ℕ → ℚ → (ℕ → Bool) → (ℕ → Bool)
  | 0, _, _, _, _, keep => keep
  | fuel + 1, L, s, e, τ, keep =>
    if e ≤ s + 1 then keep
    else
      let r := avxSearch L s e
      if r.1 > τ then
        let keep1 : ℕ → Bool := fun k => if k = r.2 then true else keep k
        let keep2 := rdpr_avx512 fuel L s r.2 τ keep1
        rdpr_avx512 fuel L r.2 e τ keep2
      else keep

/-- `simplify_avx512`: identical frame to `simplify_scalar`, recursing
through `rdpr_avx512`. -/
def simplify_avx512 (input : PolylineSoA) (tolerance : ℚ) : PolylineSoA :=
  if input.size ≤ 2 then input
  else
    let tolerance_sq := tolerance * tolerance
    let keep := rdpr_avx512 (input.size - 1) input 0
      (input.size - 1) tolerance_sq (initKeep input.size)
    buildResult input keep

/-- `simplify_avx2`: the AVX2 translation unit currently forwards to the
scalar implementation. -/
def simplify_avx2 (input : PolylineSoA) (tolerance : ℚ) : PolylineSoA :=
  simplify_scalar input tolerance

/-- `simplify_neon`: the NEON translation unit currently forwards to the
scalar implementation. -/
def simplify_neon (input : PolylineSoA) (tolerance : ℚ) : PolylineSoA :=
  simplify_scalar input tolerance

/-- `SIMDCapabilities` from `geom_simd.h`. -/
structure SIMDCapabilities where
  avx2_available : Bool
  avx512_available : Bool
  neon_available : Bool
deriving DecidableEq

/-- `SimplifyAlgorithm` from `geom_simd.h`. -/
inductive SimplifyAlgorithm where
  | AUTO | SCALAR | AVX2 | AVX512 | NEON
deriving DecidableEq

/-- The error outcomes of `simplify` in `simplify.cpp`:
`std::invalid_argument` for a non-positive tolerance,
`std::runtime_error` both for a compiled-in variant the CPU lacks and for a
variant missing from the build (the `default:` case). -/
inductive GeomError where
  | invalidArgument
  | runtimeUnsupported
  | notCompiled
deriving DecidableEq

instance exceptDecEq : DecidableEq (Except GeomError PolylineSoA)
  | .error a, .error b =>
    if h : a = b then .isTrue (by rw [h])
    else .isFalse (by intro hc; cases hc; exact h rfl)
  | .error _, .ok _ => .isFalse (by intro hc; cases hc)
  | .ok _, .error _ => .isFalse (by intro hc; cases hc)
  | .ok a, .ok b =>
    if h : a = b then .isTrue (by rw [h])
    else .isFalse (by intro hc; cases hc; exact h rfl)

/-- `simplify` from `simplify.cpp`, for a build with every kernel variant
compiled in (all the `HAVE_*` translation units are present in the
repository).  The process-wide capability cache is passed explicitly as
`caps`; throwing is modelled with `Except`. -/
def simplify (caps : SIMDCapabilities) (input : PolylineSoA)
    (tolerance : ℚ) (algorithm : SimplifyAlgorithm) :
    Except GeomError PolylineSoA :=
  if input.size ≤ 2 then .ok input
  else if tolerance ≤ 0 then .error .invalidArgument
  else
    match algorithm with
    | .AUTO =>
      if caps.avx512_available then .ok (simplify_avx512 input tolerance)
      else if caps.avx2_available then .ok (simplify_avx2 input tolerance)
      else if caps.neon_available then .ok (simplify_neon input tolerance)
      else .ok (simplify_scalar input tolerance)
    | .SCALAR => .ok (simplify_scalar input tolerance)
    | .AVX2 =>
      if caps.avx2_available then .ok (simplify_avx2 input tolerance)
      else .error .runtimeUnsupported
    | .AVX512 =>
      if caps.avx512_available then .ok (simplify_avx512 input tolerance)
      else .error .runtimeUnsupported
    | .NEON =>
      if caps.neon_available then .ok (simplify_neon input tolerance)
      else .error .runtimeUnsupported

/-- `EdgeIntersection` from `clip.h`. -/
structure EdgeIntersection where
  intersects : Bool
  t : ℚ
  u : ℚ
  x : ℚ
  y : ℚ
deriving DecidableEq

/-- The default `EdgeIntersection()` constructor: no intersection, all
numeric fields zero. -/
def EdgeIntersection.mkDefault : EdgeIntersection := ⟨false, 0, 0, 0, 0⟩

/-- `edge_intersect_scalar` from `intersect_scalar.cpp`. -/
def edge_intersect_scalar (ax1 ay1 ax2 ay2 bx1 by1 bx2 by2 : ℚ) :
    EdgeIntersection :=
  let dx_a := ax2 - ax1
  let dy_a := ay2 - ay1
  let dx_b := bx2 - bx1
  let dy_b := by2 - by1
  let denominator := dx_a * dy_b - dy_a * dx_b
  if |denominator| < 1 / 10 ^ 10 then EdgeIntersection.mkDefault
  else
    let dx_ab := bx1 - ax1
    let dy_ab := by1 - ay1
    let t := (dx_ab * dy_b - dy_ab * dx_b) / denominator
    let u := (dx_ab * dy_a - dy_ab * dx_a) / denominator
    if 0 ≤ t ∧ t ≤ 1 ∧ 0 ≤ u ∧ u ≤ 1 then
      ⟨true, t, u, ax1 + t * dx_a, ay1 + t * dy_a⟩
    else EdgeIntersection.mkDefault

/-- The denominator the AVX-512 batched kernel computes in lane `i`:
the cross product of edge A's direction with the direction of the `i`-th
loaded edge of B. -/
def lane_denominator (ax1 ay1 ax2 ay2 : ℚ) (b : PolylineSoA) (s i : ℕ) : ℚ :=
  let dx_a := ax2 - ax1
  let dy_a := ay2 - ay1
  let dx_b := b.ptX (s + i + 1) - b.ptX (s + i)
  let dy_b := b.ptY (s + i + 1) - b.ptY (s + i)
  dx_a * dy_b - dy_a * dx_b

/-- Lane `i` of `edge_intersect_avx512`: edge A against edge
`(b[s+i], b[s+i+1])` of B.  All eight lanes perform the same instruction
sequence.  Model caveat: the kernel's fused multiply-subtract and fused
multiply-add round once in binary64 where `edge_intersect_scalar`'s
separate multiply and subtract round twice; over `ℚ` both collapse to the
same expression, so this definition is faithful to the doubles kernel only
at inputs whose binary64 arithmetic is exact, and it is used solely to
evaluate such inputs.  The parameters `t`, `u` are divided out
unconditionally; the lane result is the stored intersection record when
the combined validity mask is set, and the default record otherwise. -/
def edge_intersect_avx512 (ax1 ay1 ax2 ay2 : ℚ) (b : PolylineSoA)
    (s : ℕ) (i : Fin 8) : EdgeIntersection :=
  let dx_a := ax2 - ax1
  let dy_a := ay2 - ay1
  let bx1 := b.ptX (s + (i : ℕ))
  let by1 := b.ptY (s + (i : ℕ))
  let bx2 := b.ptX (s + 1 + (i : ℕ))
  let by2 := b.ptY (s + 1 + (i : ℕ))
  let dx_b := bx2 - bx1
  let dy_b := by2 - by1
  let denominator := dx_a * dy_b - dy_a * dx_b
  let dx_ab := bx1 - ax1
  let dy_ab := by1 - ay1
  let t := (dx_ab * dy_b - dy_ab * dx_b) / denominator
  let u := (dx_ab * dy_a - dy_ab * dx_a) / denominator
  let t_valid := 0 ≤ t ∧ t ≤ 1
  let u_valid := 0 ≤ u ∧ u ≤ 1
  let not_parallel := |denominator| > 1 / 10 ^ 10
  if t_valid ∧ u_valid ∧ not_parallel then
    ⟨true, t, u, ax1 + t * dx_a, ay1 + t * dy_a⟩
  else EdgeIntersection.mkDefault

/-- `Polygon` from `polygon.h`: a wrapped vertex polyline. -/
structure Polygon where
  vertices : PolylineSoA
deriving DecidableEq

namespace Polygon

/-- `size()`. -/
def size (p : Polygon) : ℕ := p.vertices.size

/-- `Polygon::is_closed` from `polygon.cpp`. -/
def is_closed (p : Polygon) : Bool :=
  if p.vertices.size < 2 then false
  else
    let last := p.vertices.size - 1
    let dx := p.vertices.ptX 0 - p.vertices.ptX last
    let dy := p.vertices.ptY 0 - p.vertices.ptY last
    decide (dx * dx + dy * dy < 1 / 10 ^ 10)

/-- `Polygon::signed_area` from `polygon.cpp`: the shoelace accumulation over
`i < limit` with `j = (i + 1) % n`, where `limit` drops the final wrap edge
exactly when the polygon is explicitly closed. -/
def signed_area (p : Polygon) : ℚ :=
  if p.vertices.size < 3 then 0
  else
    let n := p.vertices.size
    let limit := if p.is_closed then n - 1 else n
    let term := fun i =>
      let j := (i + 1) % n
      p.vertices.ptX i * p.vertices.ptY j - p.vertices.ptX j * p.vertices.ptY i
    (((List.range limit).map term).sum) * (1 / 2)

/-- `Polygon::area`. -/
def area (p : Polygon) : ℚ := |p.signed_area|

/-- `Polygon::is_ccw` from `polygon.h`: `signed_area() > 0`. -/
def is_ccw (p : Polygon) : Bool := decide (p.signed_area > 0)

/-- `Polygon::close` from `polygon.cpp`. -/
def close (p : Polygon) : Polygon :=
  if p.is_closed then p
  else ⟨p.vertices.push_back (p.vertices.ptX 0) (p.vertices.ptY 0)⟩

/-- `Polygon::reverse` from `polygon.cpp`. -/
def reverse (p : Polygon) : Polygon :=
  ⟨⟨p.vertices.x.reverse, p.vertices.y.reverse⟩⟩

/-- The vertex indices `Polygon::close` reads: `is_closed` reads the first
and last vertex when the polygon has at least two vertices, and the
`push_back` branch then reads vertex `0` unconditionally. -/
def closeReads (p : Polygon) : List ℕ :=
  (if p.vertices.size < 2 then [] else [0, p.vertices.size - 1]) ++
    (if p.is_closed then [] else [0])

end Polygon

/-!  Generic facts about the strict-greater running-maximum fold. -/

theorem ite_gt_eq_max (a b : ℚ) : (if b > a then b else a) = max a b := by
  rcases le_or_lt b a with h | h
  · rw [if_neg (not_lt.mpr h), max_eq_left h]
  · rw [if_pos h, max_eq_right h.le]

theorem le_searchFold_fst (d : ℕ → ℚ) (l : List ℕ) (acc : ℚ × ℕ) :
    acc.1 ≤ (searchFold d l acc).1 := by
  induction l generalizing acc with
  | nil => exact le_rfl
  | cons k l ih =>
    simp only [searchFold]
    refine le_trans ?_ (ih _)
    split
    · exact le_of_lt (by assumption)
    · exact le_rfl

theorem searchFold_fst_le_of_mem (d : ℕ → ℚ) (l : List ℕ) (acc : ℚ × ℕ)
    (k : ℕ) (hk : k ∈ l) : d k ≤ (searchFold d l acc).1 := by
  induction l generalizing acc with
  | nil => cases hk
  | cons a l ih =>
    simp only [searchFold]
    rcases List.mem_cons.mp hk with rfl | hk
    · refine le_trans ?_ (le_searchFold_fst d l _)
      split
      · exact le_rfl
      · exact le_of_not_lt (by assumption)
    · exact ih _ hk

theorem searchFold_eq_or (d : ℕ → ℚ) (l : List ℕ) (acc : ℚ × ℕ) :
    searchFold d l acc = acc ∨
      ((searchFold d l acc).2 ∈ l ∧
        d (searchFold d l acc).2 = (searchFold d l acc).1 ∧
        acc.1 < (searchFold d l acc).1) := by
  induction l generalizing acc with
  | nil => exact Or.inl rfl
  | cons k l ih =>
    simp only [searchFold]
    by_cases h : d k > acc.1
    · rw [if_pos h]
      rcases ih (d k, k) with heq | ⟨hmem, hval, hlt⟩
      · right
        rw [heq]
        exact ⟨List.mem_cons_self k l, rfl, h⟩
      · right
        exact ⟨List.mem_cons_of_mem _ hmem, hval,
          lt_of_lt_of_le h (le_of_lt hlt)⟩
    · rw [if_neg h]
      rcases ih acc with heq | ⟨hmem, hval, hlt⟩
      · exact Or.inl heq
      · exact Or.inr ⟨List.mem_cons_of_mem _ hmem, hval, hlt⟩

theorem searchFold_eq_of_fst_eq (d : ℕ → ℚ) (l : List ℕ) (acc : ℚ × ℕ)
    (h : (searchFold d l acc).1 = acc.1) : searchFold d l acc = acc := by
  rcases searchFold_eq_or d l acc with heq | ⟨_, _, hlt⟩
  · exact heq
  · exact absurd (h ▸ hlt) (lt_irrefl _)

theorem searchFold_snd_le (d : ℕ → ℚ) (l : List ℕ) :
    ∀ (acc : ℚ × ℕ), l.Pairwise (· < ·) → ∀ j ∈ l,
      d j = (searchFold d l acc).1 →
      acc.1 < (searchFold d l acc).1 →
      (searchFold d l acc).2 ≤ j := by
  induction l with
  | nil => intro acc _ j hj; cases hj
  | cons k l ih =>
    intro acc hsort j hj hval hlt
    rcases List.pairwise_cons.mp hsort with ⟨hk, htail⟩
    simp only [searchFold] at hval hlt ⊢
    by_cases h : d k > acc.1
    · rw [if_pos h] at hval hlt ⊢
      rcases List.mem_cons.mp hj with rfl | hjl
      · rcases searchFold_eq_or d l (d j, j) with heq | ⟨-, -, hlt2⟩
        · rw [heq]
        · rw [← hval] at hlt2
          exact absurd hlt2 (lt_irrefl _)
      · by_cases h2 : (d k, k).1 < (searchFold d l (d k, k)).1
        · exact ih (d k, k) htail j hjl hval h2
        · have hfst : (searchFold d l (d k, k)).1 = (d k, k).1 :=
            le_antisymm (not_lt.mp h2) (le_searchFold_fst d l _)
          rw [searchFold_eq_of_fst_eq d l _ hfst]
          exact le_of_lt (hk j hjl)
    · rw [if_neg h] at hval hlt ⊢
      rcases List.mem_cons.mp hj with rfl | hjl
      · rw [← hval] at hlt
        exact absurd (lt_of_lt_of_le hlt (le_of_not_lt h)) (lt_irrefl _)
      · exact ih acc htail j hjl hval hlt

theorem searchFold_append (d : ℕ → ℚ) (l₁ l₂ : List ℕ) (acc : ℚ × ℕ) :
    searchFold d (l₁ ++ l₂) acc = searchFold d l₂ (searchFold d l₁ acc) := by
  induction l₁ generalizing acc with
  | nil => rfl
  | cons k l ih =>
    simp only [List.cons_append, searchFold]
    exact ih _

theorem searchFold_congr (d d' : ℕ → ℚ) (l : List ℕ) (acc : ℚ × ℕ)
    (h : ∀ k ∈ l, d k = d' k) :
    searchFold d l acc = searchFold d' l acc := by
  induction l generalizing acc with
  | nil => rfl
  | cons k l ih =>
    simp only [searchFold]
    rw [h k (List.mem_cons_self k l),
      ih _ (fun a ha => h a (List.mem_cons_of_mem _ ha))]

theorem searchFold_fst_eq_foldl (d : ℕ → ℚ) (l : List ℕ) (acc : ℚ × ℕ) :
    (searchFold d l acc).1 = l.foldl (fun m k => max m (d k)) acc.1 := by
  induction l generalizing acc with
  | nil => rfl
  | cons k l ih =>
    simp only [searchFold, List.foldl_cons]
    rw [ih]
    congr 1
    by_cases h : d k > acc.1
    · rw [if_pos h]
      exact (max_eq_right h.le).symm
    · rw [if_neg h]
      exact (max_eq_left (le_of_not_lt h)).symm

/-!  The maximum-distance scan of the scalar kernel. -/

theorem search_mem_of_pos (L : PolylineSoA) (s e : ℕ)
    (h0 : 0 < (search L s e).1) :
    s < (search L s e).2 ∧ (search L s e).2 < e ∧
      scalarDist L s e (search L s e).2 = (search L s e).1 := by
  have key : search L s e = searchFold (scalarDist L s e)
      (List.range' (s + 1) (e - (s + 1))) (0, s) := rfl
  rcases searchFold_eq_or (scalarDist L s e)
      (List.range' (s + 1) (e - (s + 1))) (0, s) with heq | ⟨hmem, hval, _⟩
  · rw [key, heq] at h0
    exact absurd h0 (lt_irrefl 0)
  · rw [← key] at hmem hval
    rcases List.mem_range'_1.mp hmem with ⟨h1, h2⟩
    exact ⟨by omega, by omega, hval⟩

theorem search_fst_nonneg (L : PolylineSoA) (s e : ℕ) :
    0 ≤ (search L s e).1 :=
  le_searchFold_fst _ _ _

theorem search_le_of_interior (L : PolylineSoA) (s e i : ℕ)
    (h1 : s < i) (h2 : i < e) : scalarDist L s e i ≤ (search L s e).1 :=
  searchFold_fst_le_of_mem _ _ _ i (List.mem_range'_1.mpr ⟨by omega, by omega⟩)

theorem search_snd_least (L : PolylineSoA) (s e j : ℕ)
    (h1 : s < j) (h2 : j < e)
    (hval : scalarDist L s e j = (search L s e).1)
    (hpos : 0 < (search L s e).1) :
    (search L s e).2 ≤ j :=
  searchFold_snd_le _ _ _ (List.pairwise_lt_range' _ _ 1 (by omega)) j
    (List.mem_range'_1.mpr ⟨by omega, by omega⟩) hval hpos

/-!  The marked set of the scalar recursion, and its relation to the
keep-mask-threading definition. -/

/-- The set of indices `douglas_peucker_recursive` marks, as a function of
the range alone (the recursion never reads the incoming keep mask). -/
def dpKeptSet : ℕ → PolylineSoA → ℕ → ℕ → ℚ → Finset ℕ
  | 0, _, _, _, _ => ∅
  | fuel + 1, L, s, e, τ =>
    if e ≤ s + 1 then ∅
    else
      let r := search L s e
      if r.1 > τ then
        {r.2} ∪ dpKeptSet fuel L s r.2 τ ∪ dpKeptSet fuel L r.2 e τ
      else ∅

theorem douglas_peucker_recursive_eq (fuel : ℕ) (L : PolylineSoA)
    (s e : ℕ) (τ : ℚ) (keep : ℕ → Bool) (i : ℕ) :
    douglas_peucker_recursive fuel L s e τ keep i =
      (keep i || decide (i ∈ dpKeptSet fuel L s e τ)) := by
  induction fuel generalizing s e keep with
  | zero => simp [douglas_peucker_recursive, dpKeptSet]
  | succ fuel ih =>
    simp only [douglas_peucker_recursive, dpKeptSet]
    by_cases he : e ≤ s + 1
    · simp [he]
    · rw [if_neg he, if_neg he]
      by_cases hgt : (search L s e).1 > τ
      · rw [if_pos hgt, if_pos hgt]
        rw [ih, ih]
        by_cases him : i = (search L s e).2 <;>
          simp [him, Finset.mem_union, Bool.or_assoc, Bool.or_comm,
            Bool.or_left_comm]
      · rw [if_neg hgt, if_neg hgt]
        simp

theorem dpKeptSet_of_adjacent (L : PolylineSoA) (s e : ℕ) (τ : ℚ)
    (h : e ≤ s + 1) : ∀ fuel, dpKeptSet fuel L s e τ = ∅ := by
  intro fuel
  cases fuel with
  | zero => rfl
  | succ fuel => simp [dpKeptSet, h]

theorem dpKeptSet_subset_interior (L : PolylineSoA) (τ : ℚ) (hτ : 0 ≤ τ) :
    ∀ fuel s e i, i ∈ dpKeptSet fuel L s e τ → s < i ∧ i < e := by
  intro fuel
  induction fuel with
  | zero => intro s e i hi; cases hi
  | succ fuel ih =>
    intro s e i hi
    simp only [dpKeptSet] at hi
    by_cases he : e ≤ s + 1
    · rw [if_pos he] at hi; cases hi
    · rw [if_neg he] at hi
      by_cases hgt : (search L s e).1 > τ
      · rw [if_pos hgt] at hi
        obtain ⟨hm1, hm2, -⟩ :=
          search_mem_of_pos L s e (lt_of_le_of_lt hτ hgt)
        rcases Finset.mem_union.mp hi with hi | hi
        · rcases Finset.mem_union.mp hi with hi | hi
          · rcases Finset.mem_singleton.mp hi with rfl
            exact ⟨hm1, hm2⟩
          · obtain ⟨a, b⟩ := ih s _ i hi
            exact ⟨a, lt_trans b hm2⟩
        · obtain ⟨a, b⟩ := ih _ e i hi
          exact ⟨lt_trans hm1 a, b⟩
      · rw [if_neg hgt] at hi; cases hi

theorem dpKeptSet_fuel_congr (L : PolylineSoA) (τ : ℚ) (hτ : 0 ≤ τ) :
    ∀ f g s e, e - s ≤ f → e - s ≤ g →
      dpKeptSet f L s e τ = dpKeptSet g L s e τ := by
  intro f
  induction f with
  | zero =>
    intro g s e hf _
    rw [dpKeptSet_of_adjacent L s e τ (by omega),
      dpKeptSet_of_adjacent L s e τ (by omega)]
  | succ f ih =>
    intro g s e hf hg
    by_cases he : e ≤ s + 1
    · rw [dpKeptSet_of_adjacent L s e τ he, dpKeptSet_of_adjacent L s e τ he]
    · cases g with
      | zero => omega
      | succ g =>
        simp only [dpKeptSet]
        rw [if_neg he, if_neg he]
        by_cases hgt : (search L s e).1 > τ
        · rw [if_pos hgt, if_pos hgt]
          obtain ⟨hm1, hm2, -⟩ :=
            search_mem_of_pos L s e (lt_of_le_of_lt hτ hgt)
          rw [ih g s (search L s e).2 (by omega) (by omega),
            ih g (search L s e).2 e (by omega) (by omega)]
        · rw [if_neg hgt, if_neg hgt]

theorem douglas_peucker_keep_mono (fuel : ℕ) (L : PolylineSoA) (s e : ℕ)
    (τ : ℚ) (keep : ℕ → Bool) (i : ℕ) (h : keep i = true) :
    douglas_peucker_recursive fuel L s e τ keep i = true := by
  rw [douglas_peucker_recursive_eq, h, Bool.true_or]

theorem rdpr_avx512_keep_mono (fuel : ℕ) (L : PolylineSoA) :
    ∀ (s e : ℕ) (τ : ℚ) (keep : ℕ → Bool) (i : ℕ), keep i = true →
      rdpr_avx512 fuel L s e τ keep i = true := by
  induction fuel with
  | zero => intro s e τ keep i h; exact h
  | succ fuel ih =>
    intro s e τ keep i h
    simp only [rdpr_avx512]
    by_cases he : e ≤ s + 1
    · rw [if_pos he]; exact h
    · rw [if_neg he]
      by_cases hgt : (avxSearch L s e).1 > τ
      · rw [if_pos hgt]
        refine ih _ _ _ _ _ (ih _ _ _ _ _ ?_)
        by_cases him : i = (avxSearch L s e).2 <;> simp [him, h]
      · rw [if_neg hgt]; exact h

/-!  Claims C4 and C9: the order of the trivial-size check and the
tolerance validation in `simplify`. -/

/-- Claim C9 (confirmed): for every polyline with at most 2 points,
`simplify` returns the input unchanged for every tolerance value, including
tolerance ≤ 0 — the trivial-size check precedes tolerance validation, so no
`InvalidArgument` is raised for 0-, 1-, or 2-point inputs with a
non-positive tolerance. -/
theorem C9_trivial_input_identity (caps : SIMDCapabilities)
    (input : PolylineSoA) (tolerance : ℚ) (algorithm : SimplifyAlgorithm)
    (h : input.size ≤ 2) :
    simplify caps input tolerance algorithm = .ok input := by
  unfold simplify
  rw [if_pos h]

/-- Witness for C9 at a concrete two-point polyline with tolerance `-1`. -/
theorem C9_trivial_input_identity_witness :
    (PolylineSoA.ofPoints [(0, 0), (1, 1)]).size ≤ 2 ∧
      simplify ⟨false, false, false⟩ (PolylineSoA.ofPoints [(0, 0), (1, 1)])
        (-1) .AUTO = .ok (PolylineSoA.ofPoints [(0, 0), (1, 1)]) :=
  ⟨by decide, C9_trivial_input_identity ⟨false, false, false⟩
    (PolylineSoA.ofPoints [(0, 0), (1, 1)]) (-1) .AUTO (by decide)⟩

/-- Counterexample to claim C4 as stated: on a 2-point polyline, `simplify`
with tolerance `-1` succeeds and returns the input — it does not fail with
`InvalidArgument` — because the trivial-size early exit runs first. -/
theorem C4_counterexample_trivial_input_not_rejected :
    simplify ⟨false, false, false⟩ (PolylineSoA.ofPoints [(1, 2), (3, 4)])
      (-1) .SCALAR = .ok (PolylineSoA.ofPoints [(1, 2), (3, 4)]) := rfl

/-- Claim C4 (amended): for every input polyline with more than 2 points,
calling `simplify` with tolerance ≤ 0 fails with `InvalidArgument` and
returns no result. -/
theorem C4_nontrivial_invalid_tolerance_rejected (caps : SIMDCapabilities)
    (input : PolylineSoA) (tolerance : ℚ) (algorithm : SimplifyAlgorithm)
    (hsize : 2 < input.size) (htol : tolerance ≤ 0) :
    simplify caps input tolerance algorithm = .error .invalidArgument := by
  unfold simplify
  rw [if_neg (by omega), if_pos htol]

/-- Witness for the amended C4 at a concrete three-point polyline with
tolerance `0`. -/
theorem C4_nontrivial_invalid_tolerance_rejected_witness :
    2 < (PolylineSoA.ofPoints [(0, 0), (1, 1), (2, 0)]).size ∧
      simplify ⟨true, true, true⟩ (PolylineSoA.ofPoints [(0, 0), (1, 1), (2, 0)])
        0 .AUTO = .error .invalidArgument :=
  ⟨by decide, C4_nontrivial_invalid_tolerance_rejected ⟨true, true, true⟩
    (PolylineSoA.ofPoints [(0, 0), (1, 1), (2, 0)]) 0 .AUTO (by decide) le_rfl⟩

/-!  Claim C5: monotonicity of the output size in the tolerance. -/

theorem dpKeptSet_anti_tol (L : PolylineSoA) (τ₁ τ₂ : ℚ)
    (h12 : τ₁ ≤ τ₂) :
    ∀ fuel s e, dpKeptSet fuel L s e τ₂ ⊆ dpKeptSet fuel L s e τ₁ := by
  intro fuel
  induction fuel with
  | zero => intro s e; exact Finset.Subset.refl _
  | succ fuel ih =>
    intro s e
    simp only [dpKeptSet]
    by_cases he : e ≤ s + 1
    · rw [if_pos he, if_pos he]
    · rw [if_neg he, if_neg he]
      by_cases hgt : (search L s e).1 > τ₂
      · rw [if_pos hgt, if_pos (lt_of_le_of_lt h12 hgt)]
        exact Finset.union_subset_union
          (Finset.union_subset_union (Finset.Subset.refl _) (ih s _)) (ih _ e)
      · rw [if_neg hgt]
        exact Finset.empty_subset _

theorem filter_length_mono (p q : ℕ → Bool) (l : List ℕ)
    (h : ∀ a ∈ l, p a = true → q a = true) :
    (l.filter p).length ≤ (l.filter q).length := by
  induction l with
  | nil => exact le_rfl
  | cons a l ih =>
    have ih2 := ih (fun b hb => h b (List.mem_cons_of_mem _ hb))
    by_cases hp : p a = true
    · rw [List.filter_cons_of_pos hp,
        List.filter_cons_of_pos (h a (List.mem_cons_self a l) hp)]
      simpa using ih2
    · rw [List.filter_cons_of_neg (by simpa using hp)]
      refine le_trans ih2 ?_
      by_cases hq : q a = true
      · rw [List.filter_cons_of_pos hq]
        exact Nat.le_succ _
      · rw [List.filter_cons_of_neg (by simpa using hq)]

theorem buildResult_size (L : PolylineSoA) (f : ℕ → Bool) :
    (buildResult L f).size = ((List.range L.size).filter f).length := by
  simp [buildResult, PolylineSoA.size]

/-- Claim C5 (confirmed): simplification is monotone in the tolerance — for
`0 < t1 < t2`, the simplified output at tolerance `t2` has at most as many
points as the output at tolerance `t1` (scalar kernel, the implementation
the claim cites). -/
theorem C5_size_antitone_in_tolerance (L : PolylineSoA) (t1 t2 : ℚ)
    (h0 : 0 < t1) (h12 : t1 < t2) :
    (simplify_scalar L t2).size ≤ (simplify_scalar L t1).size := by
  by_cases hn : L.size ≤ 2
  · unfold simplify_scalar
    rw [if_pos hn, if_pos hn]
  · unfold simplify_scalar
    rw [if_neg hn, if_neg hn]
    rw [buildResult_size, buildResult_size]
    refine filter_length_mono _ _ _ ?_
    intro a _ ha
    rw [douglas_peucker_recursive_eq] at ha ⊢
    rcases Bool.or_eq_true_iff.mp ha with hinit | hmem
    · rw [hinit, Bool.true_or]
    · have hsub := dpKeptSet_anti_tol L (t1 * t1) (t2 * t2)
        (mul_self_le_mul_self h0.le h12.le)
        (L.size - 1) 0 (L.size - 1)
      rw [Bool.or_eq_true_iff]
      exact Or.inr (decide_eq_true
        (hsub (of_decide_eq_true hmem)))

/-- Witness for C5 at a concrete polyline and tolerances `1/2 < 2`. -/
theorem C5_size_antitone_in_tolerance_witness :
    (0 : ℚ) < 1 / 2 ∧ (1 / 2 : ℚ) < 2 ∧
      (simplify_scalar (PolylineSoA.ofPoints
        [(0, 0), (1, 1), (2, 0), (3, 1), (4, 0)]) 2).size ≤
      (simplify_scalar (PolylineSoA.ofPoints
        [(0, 0), (1, 1), (2, 0), (3, 1), (4, 0)]) (1 / 2)).size :=
  ⟨by norm_num, by norm_num,
    C5_size_antitone_in_tolerance
      (PolylineSoA.ofPoints [(0, 0), (1, 1), (2, 0), (3, 1), (4, 0)])
      (1 / 2) 2 (by norm_num) (by norm_num)⟩

/-!  Structure of the built result: claim C7. -/

theorem zip_eq_map_range : ∀ (xs ys : List ℚ), xs.length = ys.length →
    xs.zip ys =
      (List.range xs.length).map (fun i => (xs.getD i 0, ys.getD i 0)) := by
  intro xs
  induction xs with
  | nil => intro ys _; rfl
  | cons a xs ih =>
    intro ys h
    cases ys with
    | nil => simp at h
    | cons b ys =>
      rw [List.zip_cons_cons, ih ys (by simpa using h)]
      simp only [List.length_cons, List.range_succ_eq_map, List.map_cons,
        List.map_map]
      refine congrArg₂ List.cons rfl ?_
      refine List.map_congr_left ?_
      intro i _
      simp [Function.comp, List.getD_cons_succ]

theorem pts_eq_map_range (L : PolylineSoA) (hy : L.y.length = L.x.length) :
    L.pts = (List.range L.size).map L.pt :=
  zip_eq_map_range L.x L.y hy.symm

theorem buildResult_pts (L : PolylineSoA) (f : ℕ → Bool) :
    (buildResult L f).pts = ((List.range L.size).filter f).map L.pt := by
  simp only [buildResult, PolylineSoA.pts]
  rw [List.zip_map']
  rfl

theorem buildResult_pts_sublist (L : PolylineSoA) (f : ℕ → Bool)
    (hy : L.y.length = L.x.length) :
    (buildResult L f).pts.Sublist L.pts := by
  rw [buildResult_pts, pts_eq_map_range L hy]
  exact ((List.filter_sublist _).map L.pt)

theorem filter_range_eq_cons (n : ℕ) (f : ℕ → Bool) (h0 : f 0 = true)
    (hn : 1 ≤ n) :
    (List.range n).filter f = 0 :: ((List.range (n - 1)).map Nat.succ).filter f := by
  obtain ⟨m, rfl⟩ : ∃ m, n = m + 1 := ⟨n - 1, by omega⟩
  rw [List.range_succ_eq_map, List.filter_cons_of_pos h0]
  rfl

theorem filter_range_getLast? (n : ℕ) (f : ℕ → Bool)
    (hl : f (n - 1) = true) (hn : 1 ≤ n) :
    ((List.range n).filter f).getLast? = some (n - 1) := by
  obtain ⟨m, rfl⟩ : ∃ m, n = m + 1 := ⟨n - 1, by omega⟩
  rw [List.getLast?_eq_head?_reverse, ← List.filter_reverse,
    List.range_succ, List.reverse_append]
  simp only [List.reverse_cons, List.reverse_nil, List.nil_append,
    List.cons_append, List.filter_cons]
  rw [show m + 1 - 1 = m from rfl] at hl
  rw [hl]
  rfl

theorem buildResult_pt_zero (L : PolylineSoA) (f : ℕ → Bool)
    (h0 : f 0 = true) (hn : 1 ≤ L.size) :
    (buildResult L f).pt 0 = L.pt 0 := by
  simp only [buildResult, PolylineSoA.pt, PolylineSoA.ptX, PolylineSoA.ptY]
  rw [filter_range_eq_cons L.size f h0 hn]
  rfl

theorem buildResult_pt_last (L : PolylineSoA) (f : ℕ → Bool)
    (h0 : f 0 = true) (hl : f (L.size - 1) = true) (hn : 1 ≤ L.size) :
    (buildResult L f).pt ((buildResult L f).size - 1) = L.pt (L.size - 1) := by
  set idxs := (List.range L.size).filter f with hidxs
  have hne : idxs ≠ [] := by
    rw [hidxs, filter_range_eq_cons L.size f h0 hn]
    exact List.cons_ne_nil _ _
  have hlast : idxs.getLast hne = L.size - 1 := by
    have h1 := List.getLast?_eq_getLast idxs hne
    have h2 := filter_range_getLast? L.size f hl hn
    rw [← hidxs] at h2
    rw [h1] at h2
    exact Option.some_injective _ h2
  have hN : (buildResult L f).size = idxs.length := by
    simp [buildResult, PolylineSoA.size, hidxs]
  have hNe : 0 < idxs.length := List.length_pos.mpr hne
  have hget : idxs.get ⟨idxs.length - 1, by omega⟩ = L.size - 1 := by
    rw [← hlast, List.getLast_eq_get]
  simp only [buildResult, PolylineSoA.pt, PolylineSoA.ptX, PolylineSoA.ptY,
    ← hidxs] at hN ⊢
  rw [hN]
  have hmap : ∀ (g : ℕ → ℚ), (idxs.map g).getD (idxs.length - 1) 0 =
      g (idxs.get ⟨idxs.length - 1, by omega⟩) := by
    intro g
    rw [List.getD_eq_getElem (idxs.map g) 0 (by simpa using by omega)]
    simp [List.getElem_map]
  rw [hmap, hmap, hget]
  rfl

theorem buildResult_two_le_size (L : PolylineSoA) (f : ℕ → Bool)
    (h0 : f 0 = true) (hl : f (L.size - 1) = true) (h3 : 3 ≤ L.size) :
    2 ≤ (buildResult L f).size := by
  rw [buildResult_size]
  set idxs := (List.range L.size).filter f with hidxs
  have hnd : idxs.Nodup := (List.nodup_range L.size).filter f
  have hmem0 : 0 ∈ idxs :=
    List.mem_filter.mpr ⟨List.mem_range.mpr (by omega), h0⟩
  have hmeml : L.size - 1 ∈ idxs :=
    List.mem_filter.mpr ⟨List.mem_range.mpr (by omega), hl⟩
  have hsub : ({0, L.size - 1} : Finset ℕ) ⊆ idxs.toFinset := by
    intro a ha
    rcases Finset.mem_insert.mp ha with rfl | ha
    · exact List.mem_toFinset.mpr hmem0
    · rw [Finset.mem_singleton.mp ha]
      exact List.mem_toFinset.mpr hmeml
  have hcard : ({0, L.size - 1} : Finset ℕ).card = 2 := by
    rw [Finset.card_insert_of_not_mem (by simp; omega), Finset.card_singleton]
  calc 2 = ({0, L.size - 1} : Finset ℕ).card := hcard.symm
    _ ≤ idxs.toFinset.card := Finset.card_le_card hsub
    _ = idxs.length := List.toFinset_card_of_nodup hnd

theorem buildResult_size_le (L : PolylineSoA) (f : ℕ → Bool) :
    (buildResult L f).size ≤ L.size := by
  rw [buildResult_size]
  calc ((List.range L.size).filter f).length ≤ (List.range L.size).length :=
        (List.filter_sublist _).length_le
    _ = L.size := List.length_range L.size

/-- The conjunction claim C7 asserts of a simplification output. -/
def SimplifyPost (L r : PolylineSoA) : Prop :=
  r.pts.Sublist L.pts ∧ 2 ≤ r.size ∧ r.size ≤ L.size ∧
    r.pt 0 = L.pt 0 ∧ r.pt (r.size - 1) = L.pt (L.size - 1)

theorem simplifyPost_refl (L : PolylineSoA) (h2 : 2 ≤ L.size) :
    SimplifyPost L L :=
  ⟨List.Sublist.refl _, h2, le_rfl, rfl, rfl⟩

theorem buildResult_post (L : PolylineSoA) (f : ℕ → Bool)
    (hy : L.y.length = L.x.length) (h3 : 3 ≤ L.size)
    (h0 : f 0 = true) (hl : f (L.size - 1) = true) :
    SimplifyPost L (buildResult L f) :=
  ⟨buildResult_pts_sublist L f hy,
    buildResult_two_le_size L f h0 hl h3,
    buildResult_size_le L f,
    buildResult_pt_zero L f h0 (by omega),
    buildResult_pt_last L f h0 hl (by omega)⟩

theorem initKeep_zero (n : ℕ) : initKeep n 0 = true := by
  simp [initKeep]

theorem initKeep_last (n : ℕ) : initKeep n (n - 1) = true := by
  simp [initKeep]

theorem simplify_scalar_post (L : PolylineSoA) (t : ℚ)
    (hy : L.y.length = L.x.length) (h2 : 2 ≤ L.size) :
    SimplifyPost L (simplify_scalar L t) := by
  unfold simplify_scalar
  by_cases hn : L.size ≤ 2
  · rw [if_pos hn]
    exact simplifyPost_refl L h2
  · rw [if_neg hn]
    exact buildResult_post L _ hy (by omega)
      (douglas_peucker_keep_mono _ _ _ _ _ _ _ (initKeep_zero _))
      (douglas_peucker_keep_mono _ _ _ _ _ _ _ (initKeep_last _))

theorem simplify_avx512_post (L : PolylineSoA) (t : ℚ)
    (hy : L.y.length = L.x.length) (h2 : 2 ≤ L.size) :
    SimplifyPost L (simplify_avx512 L t) := by
  unfold simplify_avx512
  by_cases hn : L.size ≤ 2
  · rw [if_pos hn]
    exact simplifyPost_refl L h2
  · rw [if_neg hn]
    exact buildResult_post L _ hy (by omega)
      (rdpr_avx512_keep_mono _ _ _ _ _ _ _ (initKeep_zero _))
      (rdpr_avx512_keep_mono _ _ _ _ _ _ _ (initKeep_last _))

/-- Claim C7 (confirmed): whatever kernel the dispatcher selects, a
successful `simplify` call on a well-formed polyline with at least 2 points
and positive tolerance returns an order-preserving subsequence of the input
of length between 2 and the input length, with the input's exact first and
last points. -/
theorem C7_output_subsequence_endpoints (caps : SIMDCapabilities)
    (algorithm : SimplifyAlgorithm) (L r : PolylineSoA) (t : ℚ)
    (hy : L.y.length = L.x.length) (h2 : 2 ≤ L.size) (ht : 0 < t)
    (hok : simplify caps L t algorithm = .ok r) :
    r.pts.Sublist L.pts ∧ 2 ≤ r.size ∧ r.size ≤ L.size ∧
      r.pt 0 = L.pt 0 ∧ r.pt (r.size - 1) = L.pt (L.size - 1) := by
  have post : SimplifyPost L r := by
    unfold simplify at hok
    by_cases hn : L.size ≤ 2
    · rw [if_pos hn] at hok
      cases hok
      exact simplifyPost_refl L h2
    · rw [if_neg hn, if_neg (not_le.mpr ht)] at hok
      cases algorithm with
      | AUTO =>
        simp only at hok
        by_cases hc5 : caps.avx512_available = true
        · rw [if_pos hc5] at hok
          cases hok
          exact simplify_avx512_post L t hy h2
        · rw [if_neg hc5] at hok
          by_cases hc2 : caps.avx2_available = true
          · rw [if_pos hc2] at hok
            cases hok
            exact simplify_scalar_post L t hy h2
          · rw [if_neg hc2] at hok
            by_cases hcn : caps.neon_available = true
            · rw [if_pos hcn] at hok
              cases hok
              exact simplify_scalar_post L t hy h2
            · rw [if_neg hcn] at hok
              cases hok
              exact simplify_scalar_post L t hy h2
      | SCALAR =>
        simp only at hok
        cases hok
        exact simplify_scalar_post L t hy h2
      | AVX2 =>
        simp only at hok
        by_cases hc : caps.avx2_available = true
        · rw [if_pos hc] at hok
          cases hok
          exact simplify_scalar_post L t hy h2
        · rw [if_neg hc] at hok
          cases hok
      | AVX512 =>
        simp only at hok
        by_cases hc : caps.avx512_available = true
        · rw [if_pos hc] at hok
          cases hok
          exact simplify_avx512_post L t hy h2
        · rw [if_neg hc] at hok
          cases hok
      | NEON =>
        simp only at hok
        by_cases hc : caps.neon_available = true
        · rw [if_pos hc] at hok
          cases hok
          exact simplify_scalar_post L t hy h2
        · rw [if_neg hc] at hok
          cases hok
  exact post

/-- Witness for C7: a concrete four-point collinear polyline simplified with
the AUTO dispatch on an AVX-512-capable machine. -/
theorem C7_output_subsequence_endpoints_witness :
    (simplify ⟨true, true, true⟩
        (PolylineSoA.ofPoints [(0, 0), (1, 0), (2, 0), (3, 0)]) (1 / 2)
        .AUTO = .ok (PolylineSoA.ofPoints [(0, 0), (3, 0)])) ∧
      (PolylineSoA.ofPoints [(0, 0), (3, 0)]).pts.Sublist
        (PolylineSoA.ofPoints [(0, 0), (1, 0), (2, 0), (3, 0)]).pts ∧
      2 ≤ (PolylineSoA.ofPoints [(0, 0), (3, 0)]).size :=
  ⟨by with_unfolding_all rfl,
    (C7_output_subsequence_endpoints ⟨true, true, true⟩ .AUTO
      (PolylineSoA.ofPoints [(0, 0), (1, 0), (2, 0), (3, 0)])
      (PolylineSoA.ofPoints [(0, 0), (3, 0)]) (1 / 2) (by rfl) (by decide)
      (by norm_num) (by with_unfolding_all rfl)).1,
    (C7_output_subsequence_endpoints ⟨true, true, true⟩ .AUTO
      (PolylineSoA.ofPoints [(0, 0), (1, 0), (2, 0), (3, 0)])
      (PolylineSoA.ofPoints [(0, 0), (3, 0)]) (1 / 2) (by rfl) (by decide)
      (by norm_num) (by with_unfolding_all rfl)).2.1⟩

/-!  The AVX-512 maximum-distance search: the `_mm512_reduce_max_pd`
overwrite of the running maximum is a no-op, and the whole search is the
strict-greater fold over the mixed distance function. -/

theorem reduce8_const_zero : reduce8 (fun _ => 0) = 0 := by
  simp [reduce8]

theorem reduce8_pointwise_max (a b : Fin 8 → ℚ) :
    reduce8 (fun j => max (a j) (b j)) = max (reduce8 a) (reduce8 b) := by
  simp only [reduce8]
  rw [max_max_max_comm (a 6), max_max_max_comm (a 5), max_max_max_comm (a 4),
    max_max_max_comm (a 3), max_max_max_comm (a 2), max_max_max_comm (a 1),
    max_max_max_comm (a 0)]

theorem reduce8_blockMV_eq (d : ℕ → ℚ) (i : ℕ) (mv : Fin 8 → ℚ)
    (acc : ℚ × ℕ) (h : reduce8 mv = acc.1) :
    reduce8 (avxBlockMV d i mv) = (searchFold d (List.range' i 8) acc).1 := by
  rw [searchFold_fst_eq_foldl, ← h]
  have hbm : avxBlockMV d i mv = fun j => max (mv j) (d (i + (j : ℕ))) := by
    funext j
    exact ite_gt_eq_max _ _
  rw [hbm, reduce8_pointwise_max]
  show max (reduce8 mv) (reduce8 (fun j => d (i + (j : ℕ)))) =
    List.foldl (fun m k => max m (d k))
      (reduce8 mv) [i, i+1, i+2, i+3, i+4, i+5, i+6, i+7]
  have h0 : ((0 : Fin 8) : ℕ) = 0 := rfl
  have h1 : ((1 : Fin 8) : ℕ) = 1 := rfl
  have h2 : ((2 : Fin 8) : ℕ) = 2 := rfl
  have h3 : ((3 : Fin 8) : ℕ) = 3 := rfl
  have h4 : ((4 : Fin 8) : ℕ) = 4 := rfl
  have h5 : ((5 : Fin 8) : ℕ) = 5 := rfl
  have h6 : ((6 : Fin 8) : ℕ) = 6 := rfl
  have h7 : ((7 : Fin 8) : ℕ) = 7 := rfl
  simp only [reduce8, List.foldl_cons, List.foldl_nil, h0, h1, h2, h3, h4,
    h5, h6, h7, Nat.add_zero, max_assoc]

theorem avxLoop_spec (d : ℕ → ℚ) (e : ℕ) :
    ∀ fuel i mv acc, e - i ≤ fuel → reduce8 mv = acc.1 →
      reduce8 (avxLoop d e fuel i mv acc).2.1 =
          (avxLoop d e fuel i mv acc).2.2.1 ∧
        (avxLoop d e fuel i mv acc).2.2 =
          searchFold d (List.range' i ((avxLoop d e fuel i mv acc).1 - i)) acc ∧
        i ≤ (avxLoop d e fuel i mv acc).1 ∧
        ((avxLoop d e fuel i mv acc).1 = i ∨
          (avxLoop d e fuel i mv acc).1 ≤ e) := by
  intro fuel
  induction fuel with
  | zero =>
    intro i mv acc _ hred
    refine ⟨hred, ?_, le_rfl, Or.inl rfl⟩
    simp [avxLoop, searchFold]
  | succ fuel ih =>
    intro i mv acc hfuel hred
    by_cases hlt : i + 7 < e
    · have hstep : avxLoop d e (fuel + 1) i mv acc =
          avxLoop d e fuel (i + 8) (avxBlockMV d i mv)
            (searchFold d (List.range' i 8) acc) := by
        simp [avxLoop, hlt]
      obtain ⟨ha, hb, hc, hd⟩ := ih (i + 8) (avxBlockMV d i mv)
        (searchFold d (List.range' i 8) acc) (by omega)
        (reduce8_blockMV_eq d i mv acc hred)
      rw [hstep]
      refine ⟨ha, ?_, by omega, ?_⟩
      · rw [hb, ← searchFold_append]
        have hsplit : List.range' i 8 ++
            List.range' (i + 8)
              ((avxLoop d e fuel (i + 8) (avxBlockMV d i mv)
                (searchFold d (List.range' i 8) acc)).1 - (i + 8)) =
            List.range' i
              ((avxLoop d e fuel (i + 8) (avxBlockMV d i mv)
                (searchFold d (List.range' i 8) acc)).1 - i) := by
          rw [List.range'_append_1]
          congr 1
          omega
        rw [hsplit]
      · right
        rcases hd with hd | hd
        · omega
        · exact hd
    · have hstep : avxLoop d e (fuel + 1) i mv acc = (i, mv, acc) := by
        simp [avxLoop, hlt]
      rw [hstep]
      refine ⟨hred, ?_, le_rfl, Or.inl rfl⟩
      simp [searchFold]

theorem avxSearch_eq_fold (L : PolylineSoA) (s e : ℕ) :
    avxSearch L s e =
      searchFold (avxUsedDist L s e) (List.range' (s + 1) (e - (s + 1)))
        (0, s) := by
  obtain ⟨ha, hb, hc, hd⟩ := avxLoop_spec (avxDist L s e) e e (s + 1)
    (fun _ => 0) (0, s) (by omega) (by rw [reduce8_const_zero])
  have hv : vecEnd L s e =
      (avxLoop (avxDist L s e) e e (s + 1) (fun _ => 0) (0, s)).1 := rfl
  rw [← hv] at hb hc hd
  have hform : avxSearch L s e =
      searchFold (scalarDist L s e)
        (List.range' (vecEnd L s e) (e - vecEnd L s e))
        ((avxLoop (avxDist L s e) e e (s + 1) (fun _ => 0) (0, s)).2.2) := by
    simp only [avxSearch]
    rw [ha, Prod.mk.eta, hv]
  rw [hform, hb]
  rw [searchFold_congr (avxDist L s e) (avxUsedDist L s e)
      (List.range' (s + 1) (vecEnd L s e - (s + 1))) (0, s) ?hvec,
    searchFold_congr (scalarDist L s e) (avxUsedDist L s e)
      (List.range' (vecEnd L s e) (e - vecEnd L s e)) _ ?hrem,
    ← searchFold_append]
  case hvec =>
    intro k hk
    rcases List.mem_range'_1.mp hk with ⟨hk1, hk2⟩
    rw [avxUsedDist, if_pos (by omega)]
  case hrem =>
    intro k hk
    rcases List.mem_range'_1.mp hk with ⟨hk1, hk2⟩
    rw [avxUsedDist, if_neg (by omega)]
  obtain ⟨m, hm⟩ : ∃ m, vecEnd L s e = s + 1 + m :=
    ⟨vecEnd L s e - (s + 1), by omega⟩
  have hsplit : List.range' (s + 1) (vecEnd L s e - (s + 1)) ++
      List.range' (vecEnd L s e) (e - vecEnd L s e) =
      List.range' (s + 1) (e - (s + 1)) := by
    rw [hm, show s + 1 + m - (s + 1) = m from by omega,
      List.range'_append_1]
    congr 1
    omega
  rw [hsplit]

theorem avxSearch_fst_nonneg (L : PolylineSoA) (s e : ℕ) :
    0 ≤ (avxSearch L s e).1 := by
  rw [avxSearch_eq_fold]
  exact le_searchFold_fst _ _ _

theorem avxSearch_mem_of_pos (L : PolylineSoA) (s e : ℕ)
    (h0 : 0 < (avxSearch L s e).1) :
    s < (avxSearch L s e).2 ∧ (avxSearch L s e).2 < e ∧
      avxUsedDist L s e (avxSearch L s e).2 = (avxSearch L s e).1 := by
  rw [avxSearch_eq_fold] at h0 ⊢
  rcases searchFold_eq_or (avxUsedDist L s e)
      (List.range' (s + 1) (e - (s + 1))) (0, s) with heq | ⟨hmem, hval, _⟩
  · rw [heq] at h0
    exact absurd h0 (lt_irrefl 0)
  · rcases List.mem_range'_1.mp hmem with ⟨h1, h2⟩
    exact ⟨by omega, by omega, hval⟩

theorem avxSearch_le_of_interior (L : PolylineSoA) (s e i : ℕ)
    (h1 : s < i) (h2 : i < e) :
    avxUsedDist L s e i ≤ (avxSearch L s e).1 := by
  rw [avxSearch_eq_fold]
  exact searchFold_fst_le_of_mem _ _ _ i
    (List.mem_range'_1.mpr ⟨by omega, by omega⟩)

theorem avxSearch_snd_least (L : PolylineSoA) (s e j : ℕ)
    (h1 : s < j) (h2 : j < e)
    (hval : avxUsedDist L s e j = (avxSearch L s e).1)
    (hpos : 0 < (avxSearch L s e).1) :
    (avxSearch L s e).2 ≤ j := by
  rw [avxSearch_eq_fold] at hval hpos ⊢
  exact searchFold_snd_le _ _ _ (List.pairwise_lt_range' _ _ 1 (by omega)) j
    (List.mem_range'_1.mpr ⟨by omega, by omega⟩) hval hpos

/-- Claim C2 (confirmed): under both kernel variants (scalar and AVX-512),
when two interior candidates `i < j` both attain the maximal squared
distance and that maximum exceeds the squared tolerance, the search reports
an index no larger than `i` — hence never the higher-indexed `j` — and the
recursion marks exactly that reported point as kept. -/
theorem C2_tie_break_lowest_index (L : PolylineSoA) (s e i j : ℕ) (τ : ℚ)
    (hsi : s < i) (hij : i < j) (hje : j < e) (hτ : 0 ≤ τ) :
    ((scalarDist L s e i = (search L s e).1 →
      scalarDist L s e j = (search L s e).1 →
      τ < (search L s e).1 →
      (search L s e).2 ≤ i ∧ (search L s e).2 ≠ j ∧
        ∀ keep : ℕ → Bool,
          douglas_peucker_recursive (e - s) L s e τ keep
            (search L s e).2 = true) ∧
     (avxUsedDist L s e i = (avxSearch L s e).1 →
      avxUsedDist L s e j = (avxSearch L s e).1 →
      τ < (avxSearch L s e).1 →
      (avxSearch L s e).2 ≤ i ∧ (avxSearch L s e).2 ≠ j ∧
        ∀ keep : ℕ → Bool,
          rdpr_avx512 (e - s) L s e τ keep (avxSearch L s e).2 = true)) := by
  constructor
  · intro hvi _ hgt
    have hpos : 0 < (search L s e).1 := lt_of_le_of_lt hτ hgt
    have hle := search_snd_least L s e i hsi (lt_trans hij hje) hvi hpos
    refine ⟨hle, ne_of_lt (lt_of_le_of_lt hle hij), ?_⟩
    intro keep
    obtain ⟨f, hf⟩ : ∃ f, e - s = f + 1 := ⟨e - s - 1, by omega⟩
    rw [hf]
    simp only [douglas_peucker_recursive]
    rw [if_neg (by omega : ¬ e ≤ s + 1), if_pos hgt]
    apply douglas_peucker_keep_mono
    apply douglas_peucker_keep_mono
    simp
  · intro hvi _ hgt
    have hpos : 0 < (avxSearch L s e).1 := lt_of_le_of_lt hτ hgt
    have hle := avxSearch_snd_least L s e i hsi (lt_trans hij hje) hvi hpos
    refine ⟨hle, ne_of_lt (lt_of_le_of_lt hle hij), ?_⟩
    intro keep
    obtain ⟨f, hf⟩ : ∃ f, e - s = f + 1 := ⟨e - s - 1, by omega⟩
    rw [hf]
    simp only [rdpr_avx512]
    rw [if_neg (by omega : ¬ e ≤ s + 1), if_pos hgt]
    apply rdpr_avx512_keep_mono
    apply rdpr_avx512_keep_mono
    simp

/-- Witness for C2: a ten-point polyline whose interior candidates 1 and 5
both lie at squared distance 4 from the chord, with every other candidate at
distance 1; both kernels report index 1. -/
theorem C2_tie_break_lowest_index_witness :
    (search (PolylineSoA.ofPoints [(0, 0), (1, 2), (2, 1), (3, 1), (4, 1),
        (5, 2), (6, 1), (7, 1), (8, 1), (9, 0)]) 0 9).2 ≤ 1 ∧
      (avxSearch (PolylineSoA.ofPoints [(0, 0), (1, 2), (2, 1), (3, 1), (4, 1),
        (5, 2), (6, 1), (7, 1), (8, 1), (9, 0)]) 0 9).2 ≤ 1 := by
  have h := C2_tie_break_lowest_index
    (PolylineSoA.ofPoints [(0, 0), (1, 2), (2, 1), (3, 1), (4, 1),
      (5, 2), (6, 1), (7, 1), (8, 1), (9, 0)]) 0 9 1 5 1
    (by omega) (by omega) (by omega) (by norm_num)
  exact ⟨(h.1 (by with_unfolding_all rfl) (by with_unfolding_all rfl)
      (by with_unfolding_all decide)).1,
    (h.2 (by with_unfolding_all rfl) (by with_unfolding_all rfl)
      (by with_unfolding_all decide)).1⟩

/-- Claim C3 is a code bug: on a degenerate chord (squared length `1e-14`,
below the `1e-10` threshold), the scalar kernel computes every interior
candidate's distance as the squared distance to the chord start (candidate 1
gets 2), while the AVX-512 hot loop divides the squared cross product by the
near-zero chord length regardless (candidate 1 gets 1).  With tolerance
`6/5` the two kernels then return different simplifications of the same
input. -/
theorem C3_avx512_hot_loop_divides_by_degenerate_chord :
    chordMagSq (PolylineSoA.ofPoints [(0, 0), (1, 1), (0, 0), (0, 0), (0, 0),
        (0, 0), (0, 0), (0, 0), (0, 0), (1 / 10 ^ 7, 0)]) 0 9 < 1 / 10 ^ 10 ∧
      scalarDist (PolylineSoA.ofPoints [(0, 0), (1, 1), (0, 0), (0, 0), (0, 0),
        (0, 0), (0, 0), (0, 0), (0, 0), (1 / 10 ^ 7, 0)]) 0 9 1 = 2 ∧
      avxDist (PolylineSoA.ofPoints [(0, 0), (1, 1), (0, 0), (0, 0), (0, 0),
        (0, 0), (0, 0), (0, 0), (0, 0), (1 / 10 ^ 7, 0)]) 0 9 1 = 1 ∧
      vecEnd (PolylineSoA.ofPoints [(0, 0), (1, 1), (0, 0), (0, 0), (0, 0),
        (0, 0), (0, 0), (0, 0), (0, 0), (1 / 10 ^ 7, 0)]) 0 9 = 9 ∧
      simplify_scalar (PolylineSoA.ofPoints [(0, 0), (1, 1), (0, 0), (0, 0),
        (0, 0), (0, 0), (0, 0), (0, 0), (0, 0), (1 / 10 ^ 7, 0)]) (6 / 5) =
        PolylineSoA.ofPoints [(0, 0), (1, 1), (1 / 10 ^ 7, 0)] ∧
      simplify_avx512 (PolylineSoA.ofPoints [(0, 0), (1, 1), (0, 0), (0, 0),
        (0, 0), (0, 0), (0, 0), (0, 0), (0, 0), (1 / 10 ^ 7, 0)]) (6 / 5) =
        PolylineSoA.ofPoints [(0, 0), (1 / 10 ^ 7, 0)] ∧
      simplify_avx512 (PolylineSoA.ofPoints [(0, 0), (1, 1), (0, 0), (0, 0),
        (0, 0), (0, 0), (0, 0), (0, 0), (0, 0), (1 / 10 ^ 7, 0)]) (6 / 5) ≠
        simplify_scalar (PolylineSoA.ofPoints [(0, 0), (1, 1), (0, 0), (0, 0),
        (0, 0), (0, 0), (0, 0), (0, 0), (0, 0), (1 / 10 ^ 7, 0)]) (6 / 5) := by
  refine ⟨by with_unfolding_all decide, by with_unfolding_all rfl,
    by with_unfolding_all rfl, by with_unfolding_all rfl,
    by with_unfolding_all rfl, by with_unfolding_all rfl,
    by with_unfolding_all decide⟩

/-- Claim C1 states the spec's hard lane/scalar equivalence contract for
the batched edge-intersection kernel; the code violates it.  At this
failing input the lane-0 denominator is exactly the `1e-10` parallel
threshold: the scalar kernel's strict `<` rejection lets it proceed and it
reports an intersection with `t = u = 1/2`, while the AVX-512 lane's strict
`>` acceptance mask reports none, so the per-lane `intersects` boolean
disagrees with the scalar kernel on identical coordinate inputs.  Every
arithmetic step at this input is exact in binary64 as well (products by
`1`, `0` and powers of two, and a division of a value by its own double),
so the divergence is bit-faithful to the doubles program. -/
theorem C1_epsilon_boundary_boolean_divergence :
    lane_denominator 0 0 1 0
        (PolylineSoA.ofPoints [(1 / 2, -(1 / (2 * 10 ^ 10))),
          (1 / 2, 1 / (2 * 10 ^ 10)), (0, 0), (0, 0), (0, 0), (0, 0), (0, 0),
          (0, 0), (0, 0)]) 0 0 = 1 / 10 ^ 10 ∧
      (edge_intersect_scalar 0 0 1 0
        ((PolylineSoA.ofPoints [(1 / 2, -(1 / (2 * 10 ^ 10))),
          (1 / 2, 1 / (2 * 10 ^ 10)), (0, 0), (0, 0), (0, 0), (0, 0), (0, 0),
          (0, 0), (0, 0)]).ptX 0)
        ((PolylineSoA.ofPoints [(1 / 2, -(1 / (2 * 10 ^ 10))),
          (1 / 2, 1 / (2 * 10 ^ 10)), (0, 0), (0, 0), (0, 0), (0, 0), (0, 0),
          (0, 0), (0, 0)]).ptY 0)
        ((PolylineSoA.ofPoints [(1 / 2, -(1 / (2 * 10 ^ 10))),
          (1 / 2, 1 / (2 * 10 ^ 10)), (0, 0), (0, 0), (0, 0), (0, 0), (0, 0),
          (0, 0), (0, 0)]).ptX 1)
        ((PolylineSoA.ofPoints [(1 / 2, -(1 / (2 * 10 ^ 10))),
          (1 / 2, 1 / (2 * 10 ^ 10)), (0, 0), (0, 0), (0, 0), (0, 0), (0, 0),
          (0, 0), (0, 0)]).ptY 1)).intersects = true ∧
      (edge_intersect_scalar 0 0 1 0
        ((PolylineSoA.ofPoints [(1 / 2, -(1 / (2 * 10 ^ 10))),
          (1 / 2, 1 / (2 * 10 ^ 10)), (0, 0), (0, 0), (0, 0), (0, 0), (0, 0),
          (0, 0), (0, 0)]).ptX 0)
        ((PolylineSoA.ofPoints [(1 / 2, -(1 / (2 * 10 ^ 10))),
          (1 / 2, 1 / (2 * 10 ^ 10)), (0, 0), (0, 0), (0, 0), (0, 0), (0, 0),
          (0, 0), (0, 0)]).ptY 0)
        ((PolylineSoA.ofPoints [(1 / 2, -(1 / (2 * 10 ^ 10))),
          (1 / 2, 1 / (2 * 10 ^ 10)), (0, 0), (0, 0), (0, 0), (0, 0), (0, 0),
          (0, 0), (0, 0)]).ptX 1)
        ((PolylineSoA.ofPoints [(1 / 2, -(1 / (2 * 10 ^ 10))),
          (1 / 2, 1 / (2 * 10 ^ 10)), (0, 0), (0, 0), (0, 0), (0, 0), (0, 0),
          (0, 0), (0, 0)]).ptY 1)).t = 1 / 2 ∧
      (edge_intersect_scalar 0 0 1 0
        ((PolylineSoA.ofPoints [(1 / 2, -(1 / (2 * 10 ^ 10))),
          (1 / 2, 1 / (2 * 10 ^ 10)), (0, 0), (0, 0), (0, 0), (0, 0), (0, 0),
          (0, 0), (0, 0)]).ptX 0)
        ((PolylineSoA.ofPoints [(1 / 2, -(1 / (2 * 10 ^ 10))),
          (1 / 2, 1 / (2 * 10 ^ 10)), (0, 0), (0, 0), (0, 0), (0, 0), (0, 0),
          (0, 0), (0, 0)]).ptY 0)
        ((PolylineSoA.ofPoints [(1 / 2, -(1 / (2 * 10 ^ 10))),
          (1 / 2, 1 / (2 * 10 ^ 10)), (0, 0), (0, 0), (0, 0), (0, 0), (0, 0),
          (0, 0), (0, 0)]).ptX 1)
        ((PolylineSoA.ofPoints [(1 / 2, -(1 / (2 * 10 ^ 10))),
          (1 / 2, 1 / (2 * 10 ^ 10)), (0, 0), (0, 0), (0, 0), (0, 0), (0, 0),
          (0, 0), (0, 0)]).ptY 1)).u = 1 / 2 ∧
      (edge_intersect_avx512 0 0 1 0
        (PolylineSoA.ofPoints [(1 / 2, -(1 / (2 * 10 ^ 10))),
          (1 / 2, 1 / (2 * 10 ^ 10)), (0, 0), (0, 0), (0, 0), (0, 0), (0, 0),
          (0, 0), (0, 0)]) 0 0).intersects = false := by
  refine ⟨by with_unfolding_all rfl, by with_unfolding_all rfl,
    by with_unfolding_all rfl, by with_unfolding_all rfl,
    by with_unfolding_all rfl⟩

theorem is_closed_of_ends_eq (v : PolylineSoA) (h2 : 2 ≤ v.size)
    (hx : v.ptX 0 = v.ptX (v.size - 1)) (hy : v.ptY 0 = v.ptY (v.size - 1)) :
    Polygon.is_closed ⟨v⟩ = true := by
  rw [Polygon.is_closed, if_neg (show ¬ v.size < 2 by omega)]
  show decide ((v.ptX 0 - v.ptX (v.size - 1)) * (v.ptX 0 - v.ptX (v.size - 1)) +
      (v.ptY 0 - v.ptY (v.size - 1)) * (v.ptY 0 - v.ptY (v.size - 1)) <
      1 / 10 ^ 10) = true
  rw [← hx, ← hy]
  simp only [sub_self, mul_zero, add_zero]
  rw [decide_eq_true_eq]
  norm_num

/-- Modelled from the spec: the shoelace sum of an explicitly closed polygon
taken over each consecutive vertex pair exactly once, with no wrap-around
edge — the duplicated final vertex is not double-counted. -/
def shoelace_closed (P : Polygon) : ℚ :=
  (((List.range (P.vertices.size - 1)).map (fun i =>
    P.vertices.ptX i * P.vertices.ptY (i + 1) -
      P.vertices.ptX (i + 1) * P.vertices.ptY i)).sum) * (1 / 2)

/-- Claim C8 (confirmed): `signed_area` is the closure-aware shoelace sum —
zero below 3 vertices, no double-counting of the duplicated final vertex of
an explicitly closed polygon, positive exactly when `is_ccw` holds — and on
the closed square `(0,0),(10,0),(10,10),(0,10),(0,0)` it returns `100`,
`-100` after `reverse()`, with `area() = 100` both times. -/
theorem C8_signed_area_shoelace :
    Polygon.signed_area ⟨PolylineSoA.ofPoints
        [(0, 0), (10, 0), (10, 10), (0, 10), (0, 0)]⟩ = 100 ∧
      Polygon.signed_area (Polygon.reverse ⟨PolylineSoA.ofPoints
        [(0, 0), (10, 0), (10, 10), (0, 10), (0, 0)]⟩) = -100 ∧
      Polygon.area ⟨PolylineSoA.ofPoints
        [(0, 0), (10, 0), (10, 10), (0, 10), (0, 0)]⟩ = 100 ∧
      Polygon.area (Polygon.reverse ⟨PolylineSoA.ofPoints
        [(0, 0), (10, 0), (10, 10), (0, 10), (0, 0)]⟩) = 100 ∧
      (∀ P : Polygon, P.size < 3 → P.signed_area = 0) ∧
      (∀ P : Polygon, P.is_ccw = true ↔ 0 < P.signed_area) ∧
      (∀ P : Polygon, 3 ≤ P.size →
        P.vertices.pt (P.size - 1) = P.vertices.pt 0 →
        P.signed_area = shoelace_closed P) := by
  refine ⟨by with_unfolding_all decide, by with_unfolding_all decide,
    by with_unfolding_all decide, by with_unfolding_all decide, ?_, ?_, ?_⟩
  · intro P h
    have h2 : P.vertices.size < 3 := h
    rw [Polygon.signed_area, if_pos h2]
  · intro P
    simp [Polygon.is_ccw]
  · intro P h3 hclosed
    have h3a : 3 ≤ P.vertices.size := h3
    have hx : P.vertices.ptX (P.vertices.size - 1) = P.vertices.ptX 0 :=
      congrArg Prod.fst hclosed
    have hy : P.vertices.ptY (P.vertices.size - 1) = P.vertices.ptY 0 :=
      congrArg Prod.snd hclosed
    have hcl : P.is_closed = true :=
      is_closed_of_ends_eq P.vertices (by omega) hx.symm hy.symm
    rw [Polygon.signed_area, if_neg (show ¬ P.vertices.size < 3 by omega)]
    show ((List.range (if P.is_closed = true then P.vertices.size - 1
        else P.vertices.size)).map (fun i =>
          P.vertices.ptX i * P.vertices.ptY ((i + 1) % P.vertices.size) -
          P.vertices.ptX ((i + 1) % P.vertices.size) * P.vertices.ptY i)).sum
        * (1 / 2) = shoelace_closed P
    rw [if_pos hcl, shoelace_closed]
    refine congrArg₂ HMul.hMul (congrArg List.sum (List.map_congr_left ?_)) rfl
    intro i hi
    have hilt : i < P.vertices.size - 1 := List.mem_range.mp hi
    rw [Nat.mod_eq_of_lt (show i + 1 < P.vertices.size by omega)]

/-- Witness for C8 (for the universally quantified conjuncts): a two-vertex
polygon has zero signed area, and on the closed square the shoelace sum over
the explicit edges equals `signed_area`. -/
theorem C8_signed_area_shoelace_witness :
    Polygon.signed_area ⟨PolylineSoA.ofPoints [(0, 0), (10, 0)]⟩ = 0 ∧
      Polygon.signed_area ⟨PolylineSoA.ofPoints
          [(0, 0), (10, 0), (10, 10), (0, 10), (0, 0)]⟩ =
        shoelace_closed ⟨PolylineSoA.ofPoints
          [(0, 0), (10, 0), (10, 10), (0, 10), (0, 0)]⟩ :=
  ⟨C8_signed_area_shoelace.2.2.2.2.1 ⟨PolylineSoA.ofPoints [(0, 0), (10, 0)]⟩
      (by decide),
    C8_signed_area_shoelace.2.2.2.2.2.2 ⟨PolylineSoA.ofPoints
        [(0, 0), (10, 0), (10, 10), (0, 10), (0, 0)]⟩
      (by decide) (by with_unfolding_all decide)⟩

/-- Claim C10 (confirmed): every index `Polygon::close` reads is in bounds
whenever the polygon is non-empty; after `close`, a well-formed polygon that
had at least 2 vertices is closed and a second `close` appends nothing; and
on the empty polygon `close` reads vertex 0 — an out-of-bounds access —
because the `push_back` branch reads `x[0]` unconditionally after the
`is_closed` guard returns false. -/
theorem C10_close_reads_in_bounds :
    (∀ P : Polygon, 1 ≤ P.size → ∀ i ∈ P.closeReads, i < P.size) ∧
      (∀ P : Polygon, P.vertices.y.length = P.vertices.x.length →
        2 ≤ P.size →
        P.close.is_closed = true ∧ P.close.close = P.close) ∧
      (0 ∈ Polygon.closeReads ⟨⟨[], []⟩⟩ ∧
        ¬ 0 < Polygon.size ⟨⟨[], []⟩⟩) := by
  refine ⟨?_, ?_, by decide, by decide⟩
  · intro P h1 i hi
    rw [Polygon.closeReads] at hi
    unfold Polygon.size at h1 ⊢
    rcases List.mem_append.mp hi with hi | hi
    · by_cases h2 : P.vertices.size < 2
      · rw [if_pos h2] at hi
        cases hi
      · rw [if_neg h2] at hi
        simp only [List.mem_cons, List.not_mem_nil, or_false] at hi
        rcases hi with rfl | rfl
        · exact h1
        · omega
    · by_cases hc : P.is_closed = true
      · rw [if_pos hc] at hi
        cases hi
      · rw [if_neg hc] at hi
        simp only [List.mem_cons, List.not_mem_nil, or_false] at hi
        subst hi
        exact h1
  · intro P hy h2
    by_cases hc : P.is_closed = true
    · have hcl : P.close = P := by
        rw [Polygon.close, if_pos hc]
      rw [hcl]
      exact ⟨hc, by rw [hcl]⟩
    · have hxlen : 2 ≤ P.vertices.x.length := h2
      have hcl : P.close =
          ⟨P.vertices.push_back (P.vertices.ptX 0) (P.vertices.ptY 0)⟩ := by
        rw [Polygon.close, if_neg hc]
      have hsz : (P.vertices.push_back (P.vertices.ptX 0)
          (P.vertices.ptY 0)).size = P.vertices.size + 1 := by
        simp [PolylineSoA.push_back, PolylineSoA.size]
      have hx0 : (P.vertices.push_back (P.vertices.ptX 0)
          (P.vertices.ptY 0)).ptX 0 = P.vertices.ptX 0 := by
        show (P.vertices.x ++ [P.vertices.x.getD 0 0]).getD 0 0 =
          P.vertices.x.getD 0 0
        exact List.getD_append _ _ _ _ (by omega)
      have hxl : (P.vertices.push_back (P.vertices.ptX 0)
          (P.vertices.ptY 0)).ptX (P.vertices.size + 1 - 1) =
          P.vertices.ptX 0 := by
        show (P.vertices.x ++ [P.vertices.x.getD 0 0]).getD
          (P.vertices.x.length + 1 - 1) 0 = P.vertices.x.getD 0 0
        rw [Nat.add_sub_cancel, List.getD_append_right _ _ _ _ le_rfl,
          Nat.sub_self]
        rfl
      have hy0 : (P.vertices.push_back (P.vertices.ptX 0)
          (P.vertices.ptY 0)).ptY 0 = P.vertices.ptY 0 := by
        show (P.vertices.y ++ [P.vertices.y.getD 0 0]).getD 0 0 =
          P.vertices.y.getD 0 0
        exact List.getD_append _ _ _ _ (by omega)
      have hyl : (P.vertices.push_back (P.vertices.ptX 0)
          (P.vertices.ptY 0)).ptY (P.vertices.size + 1 - 1) =
          P.vertices.ptY 0 := by
        show (P.vertices.y ++ [P.vertices.y.getD 0 0]).getD
          (P.vertices.x.length + 1 - 1) 0 = P.vertices.y.getD 0 0
        rw [Nat.add_sub_cancel,
          List.getD_append_right _ _ _ _ (le_of_eq hy), hy, Nat.sub_self]
        rfl
      have hclosed2 : P.close.is_closed = true := by
        rw [hcl]
        have hex : (P.vertices.push_back (P.vertices.ptX 0)
            (P.vertices.ptY 0)).ptX 0 =
            (P.vertices.push_back (P.vertices.ptX 0) (P.vertices.ptY 0)).ptX
              ((P.vertices.push_back (P.vertices.ptX 0)
                (P.vertices.ptY 0)).size - 1) := by
          rw [hsz, hx0, hxl]
        have hey : (P.vertices.push_back (P.vertices.ptX 0)
            (P.vertices.ptY 0)).ptY 0 =
            (P.vertices.push_back (P.vertices.ptX 0) (P.vertices.ptY 0)).ptY
              ((P.vertices.push_back (P.vertices.ptX 0)
                (P.vertices.ptY 0)).size - 1) := by
          rw [hsz, hy0, hyl]
        exact is_closed_of_ends_eq _
          (by rw [hsz]; have h2a : 2 ≤ P.vertices.size := h2; omega) hex hey
      refine ⟨hclosed2, ?_⟩
      rw [Polygon.close, if_pos hclosed2]

/-- Witness for C10 on a concrete open triangle: the reads are in bounds
and one `close` makes it closed, with a second `close` a no-op. -/
theorem C10_close_reads_in_bounds_witness :
    (∀ i ∈ Polygon.closeReads ⟨PolylineSoA.ofPoints [(0, 0), (1, 0), (1, 1)]⟩,
        i < Polygon.size ⟨PolylineSoA.ofPoints [(0, 0), (1, 0), (1, 1)]⟩) ∧
      (Polygon.close ⟨PolylineSoA.ofPoints
          [(0, 0), (1, 0), (1, 1)]⟩).is_closed = true ∧
      Polygon.close (Polygon.close ⟨PolylineSoA.ofPoints
          [(0, 0), (1, 0), (1, 1)]⟩) =
        Polygon.close ⟨PolylineSoA.ofPoints [(0, 0), (1, 0), (1, 1)]⟩ :=
  ⟨C10_close_reads_in_bounds.1 ⟨PolylineSoA.ofPoints [(0, 0), (1, 0), (1, 1)]⟩
      (by decide),
    (C10_close_reads_in_bounds.2.1 ⟨PolylineSoA.ofPoints
        [(0, 0), (1, 0), (1, 1)]⟩ (by decide) (by decide)).1,
    (C10_close_reads_in_bounds.2.1 ⟨PolylineSoA.ofPoints
        [(0, 0), (1, 0), (1, 1)]⟩ (by decide) (by decide)).2⟩

/-!  Claim C6 (idempotence): infrastructure relating the simplified output
back to the input through the sorted list of kept indices. -/

/-- The input index stored at position `p` of the kept-index list. -/
def kidx (L : PolylineSoA) (f : ℕ → Bool) (p : ℕ) : ℕ :=
  ((List.range L.size).filter f).getD p 0

theorem kept_sorted (L : PolylineSoA) (f : ℕ → Bool) :
    ((List.range L.size).filter f).Pairwise (· < ·) :=
  (List.pairwise_lt_range L.size).filter f

theorem kidx_strict_mono (L : PolylineSoA) (f : ℕ → Bool) (p q : ℕ)
    (hpq : p < q) (hq : q < ((List.range L.size).filter f).length) :
    kidx L f p < kidx L f q := by
  rw [kidx, kidx, List.getD_eq_get _ _ (lt_trans hpq hq),
    List.getD_eq_get _ _ hq]
  exact List.pairwise_iff_get.mp (kept_sorted L f) ⟨p, lt_trans hpq hq⟩
    ⟨q, hq⟩ hpq

theorem kidx_reflect (L : PolylineSoA) (f : ℕ → Bool) (p q : ℕ)
    (hp : p < ((List.range L.size).filter f).length)
    (hq : q < ((List.range L.size).filter f).length)
    (h : kidx L f p < kidx L f q) : p < q := by
  by_contra hcon
  push_neg at hcon
  rcases Nat.lt_or_ge q p with hlt | hge
  · exact absurd (kidx_strict_mono L f q p hlt hp) (not_lt.mpr (le_of_lt h))
  · have : q = p := le_antisymm hcon hge
    subst this
    exact absurd h (lt_irrefl _)

theorem kidx_inj (L : PolylineSoA) (f : ℕ → Bool) (p q : ℕ)
    (hp : p < ((List.range L.size).filter f).length)
    (hq : q < ((List.range L.size).filter f).length)
    (h : kidx L f p = kidx L f q) : p = q := by
  rcases Nat.lt_trichotomy p q with hlt | heq | hgt
  · exact absurd (kidx_strict_mono L f p q hlt hq) (h ▸ lt_irrefl _)
  · exact heq
  · exact absurd (kidx_strict_mono L f q p hgt hp) (h ▸ lt_irrefl _)

theorem kidx_mem (L : PolylineSoA) (f : ℕ → Bool) (p : ℕ)
    (hp : p < ((List.range L.size).filter f).length) :
    kidx L f p ∈ (List.range L.size).filter f := by
  rw [kidx, List.getD_eq_get _ _ hp]
  exact List.get_mem _ _ _

theorem kidx_surj (L : PolylineSoA) (f : ℕ → Bool) (k : ℕ)
    (hk : k ∈ (List.range L.size).filter f) :
    ∃ p, p < ((List.range L.size).filter f).length ∧ kidx L f p = k := by
  rcases List.mem_iff_get.mp hk with ⟨⟨p, hp⟩, hget⟩
  exact ⟨p, hp, by rw [kidx, List.getD_eq_get _ _ hp, hget]⟩

theorem kidx_zero (L : PolylineSoA) (f : ℕ → Bool) (h0 : f 0 = true)
    (hn : 1 ≤ L.size) : kidx L f 0 = 0 := by
  rw [kidx, filter_range_eq_cons L.size f h0 hn]
  rfl

theorem kidx_last (L : PolylineSoA) (f : ℕ → Bool) (h0 : f 0 = true)
    (hl : f (L.size - 1) = true) (hn : 1 ≤ L.size) :
    kidx L f (((List.range L.size).filter f).length - 1) = L.size - 1 := by
  have hne : (List.range L.size).filter f ≠ [] := by
    rw [filter_range_eq_cons L.size f h0 hn]
    exact List.cons_ne_nil _ _
  have hlast : ((List.range L.size).filter f).getLast hne = L.size - 1 := by
    have h1 := List.getLast?_eq_getLast _ hne
    have h2 := filter_range_getLast? L.size f hl hn
    rw [h1] at h2
    exact Option.some_injective _ h2
  have hpos : 0 < ((List.range L.size).filter f).length :=
    List.length_pos.mpr hne
  rw [kidx, List.getD_eq_get _ _ (by omega), ← List.getLast_eq_get _ hne,
    hlast]

theorem buildResult_ptX_kidx (L : PolylineSoA) (f : ℕ → Bool) (p : ℕ)
    (hp : p < ((List.range L.size).filter f).length) :
    (buildResult L f).ptX p = L.ptX (kidx L f p) := by
  show (((List.range L.size).filter f).map L.ptX).getD p 0 =
    L.ptX (((List.range L.size).filter f).getD p 0)
  rw [List.getD_eq_getElem _ _ (by simpa using hp), List.getElem_map,
    ← List.getD_eq_getElem _ _ hp]

theorem buildResult_ptY_kidx (L : PolylineSoA) (f : ℕ → Bool) (p : ℕ)
    (hp : p < ((List.range L.size).filter f).length) :
    (buildResult L f).ptY p = L.ptY (kidx L f p) := by
  show (((List.range L.size).filter f).map L.ptY).getD p 0 =
    L.ptY (((List.range L.size).filter f).getD p 0)
  rw [List.getD_eq_getElem _ _ (by simpa using hp), List.getElem_map,
    ← List.getD_eq_getElem _ _ hp]

theorem scalarDist_buildResult (L : PolylineSoA) (f : ℕ → Bool)
    (a b p : ℕ) (ha : a < ((List.range L.size).filter f).length)
    (hb : b < ((List.range L.size).filter f).length)
    (hp : p < ((List.range L.size).filter f).length) :
    scalarDist (buildResult L f) a b p =
      scalarDist L (kidx L f a) (kidx L f b) (kidx L f p) := by
  unfold scalarDist
  rw [buildResult_ptX_kidx L f p hp, buildResult_ptY_kidx L f p hp,
    buildResult_ptX_kidx L f a ha, buildResult_ptY_kidx L f a ha,
    buildResult_ptX_kidx L f b hb, buildResult_ptY_kidx L f b hb]

theorem map_getD_range : ∀ (l : List ℚ),
    (List.range l.length).map (fun i => l.getD i 0) = l := by
  intro l
  induction l with
  | nil => rfl
  | cons a l ih =>
    rw [List.length_cons, List.range_succ_eq_map, List.map_cons,
      List.map_map]
    refine congrArg₂ List.cons rfl ?_
    rw [show ((fun i => (a :: l).getD i 0) ∘ Nat.succ) =
      (fun i => l.getD i 0) from funext fun i => List.getD_cons_succ]
    exact ih

theorem buildResult_y_length (L : PolylineSoA) (f : ℕ → Bool) :
    (buildResult L f).y.length = (buildResult L f).x.length := by
  simp [buildResult]

theorem buildResult_of_all_true (M : PolylineSoA)
    (hy : M.y.length = M.x.length) (g : ℕ → Bool)
    (hg : ∀ i, i < M.size → g i = true) : buildResult M g = M := by
  have hfilter : (List.range M.size).filter g = List.range M.size :=
    List.filter_eq_self.mpr (fun i hi =>
      hg i (List.mem_range.mp hi))
  show PolylineSoA.mk (((List.range M.size).filter g).map M.ptX)
    (((List.range M.size).filter g).map M.ptY) = M
  rw [hfilter]
  refine congrArg₂ PolylineSoA.mk ?_ ?_
  · exact map_getD_range M.x
  · show (List.range M.x.length).map (fun i => M.y.getD i 0) = M.y
    rw [← hy]
    exact map_getD_range M.y

/-- Simulation of the second Douglas-Peucker pass by the first: if the kept
indices strictly between two kept chord endpoints are exactly the points the
first pass marked on that chord, then the second pass, run on the built
result over the corresponding position range, marks every interior
position. -/
theorem dp_sim (L : PolylineSoA) (τ : ℚ) (hτ : 0 ≤ τ) (f : ℕ → Bool) :
    ∀ (D a' b' : ℕ), b' - a' ≤ D → a' < b' →
      b' < ((List.range L.size).filter f).length →
      (∀ k, (k ∈ (List.range L.size).filter f ∧
          kidx L f a' < k ∧ k < kidx L f b') ↔
        k ∈ dpKeptSet (kidx L f b' - kidx L f a') L (kidx L f a')
          (kidx L f b') τ) →
      ∀ j', a' < j' → j' < b' →
        j' ∈ dpKeptSet (b' - a') (buildResult L f) a' b' τ := by
  intro D
  induction D with
  | zero =>
    intro a' b' hD hab _ _ j' hj1 hj2
    omega
  | succ D ih =>
    intro a' b' hD hab hblen Hset j' hj1 hj2
    have halen : a' < ((List.range L.size).filter f).length :=
      lt_trans hab hblen
    have hjlen : j' < ((List.range L.size).filter f).length :=
      lt_trans hj2 hblen
    have hab2 : kidx L f a' < kidx L f b' := kidx_strict_mono L f a' b' hab hblen
    have hcmem : kidx L f j' ∈ (List.range L.size).filter f :=
      kidx_mem L f j' hjlen
    have hc1 : kidx L f a' < kidx L f j' := kidx_strict_mono L f a' j' hj1 hjlen
    have hc2 : kidx L f j' < kidx L f b' := kidx_strict_mono L f j' b' hj2 hblen
    have hcS : kidx L f j' ∈ dpKeptSet (kidx L f b' - kidx L f a') L
        (kidx L f a') (kidx L f b') τ := (Hset _).mp ⟨hcmem, hc1, hc2⟩
    obtain ⟨g, hg⟩ : ∃ g, kidx L f b' - kidx L f a' = g + 1 :=
      ⟨kidx L f b' - kidx L f a' - 1, by omega⟩
    rw [hg] at hcS
    simp only [dpKeptSet] at hcS
    by_cases hne : kidx L f b' ≤ kidx L f a' + 1
    · rw [if_pos hne] at hcS
      exact absurd hcS (Finset.not_mem_empty _)
    rw [if_neg hne] at hcS
    by_cases hgt : (search L (kidx L f a') (kidx L f b')).1 > τ
    case neg =>
      rw [if_neg hgt] at hcS
      exact absurd hcS (Finset.not_mem_empty _)
    rw [if_pos hgt] at hcS
    obtain ⟨hm1, hm2, hmd⟩ :=
      search_mem_of_pos L (kidx L f a') (kidx L f b') (lt_of_le_of_lt hτ hgt)
    have hmS : (search L (kidx L f a') (kidx L f b')).2 ∈
        dpKeptSet (kidx L f b' - kidx L f a') L (kidx L f a') (kidx L f b')
          τ := by
      rw [hg]
      simp only [dpKeptSet]
      rw [if_neg hne, if_pos hgt]
      exact Finset.mem_union_left _ (Finset.mem_union_left _
        (Finset.mem_singleton_self _))
    have hmK := (Hset _).mpr hmS
    obtain ⟨p, hp, hkp⟩ := kidx_surj L f _ hmK.1
    have hpa : a' < p := kidx_reflect L f a' p halen hp (by rw [hkp]; exact hm1)
    have hpb : p < b' := kidx_reflect L f p b' hp hblen (by rw [hkp]; exact hm2)
    have hcand : ∀ q, a' < q → q < b' →
        scalarDist (buildResult L f) a' b' q =
          scalarDist L (kidx L f a') (kidx L f b') (kidx L f q) :=
      fun q _ h2 => scalarDist_buildResult L f a' b' q halen hblen
        (lt_trans h2 hblen)
    have hub : ∀ q, a' < q → q < b' →
        scalarDist (buildResult L f) a' b' q ≤
          (search L (kidx L f a') (kidx L f b')).1 := by
      intro q h1 h2
      rw [hcand q h1 h2]
      exact search_le_of_interior L (kidx L f a') (kidx L f b') (kidx L f q)
        (kidx_strict_mono L f a' q h1 (lt_trans h2 hblen))
        (kidx_strict_mono L f q b' h2 hblen)
    have hattain : scalarDist (buildResult L f) a' b' p =
        (search L (kidx L f a') (kidx L f b')).1 := by
      rw [hcand p hpa hpb, hkp]
      exact hmd
    have hRfst : (search (buildResult L f) a' b').1 =
        (search L (kidx L f a') (kidx L f b')).1 := by
      refine le_antisymm ?_ ?_
      · rcases searchFold_eq_or (scalarDist (buildResult L f) a' b')
            (List.range' (a' + 1) (b' - (a' + 1))) (0, a') with heq | hat
        · rw [show search (buildResult L f) a' b' = searchFold
              (scalarDist (buildResult L f) a' b')
              (List.range' (a' + 1) (b' - (a' + 1))) (0, a') from rfl, heq]
          exact le_of_lt (lt_of_le_of_lt hτ hgt)
        · obtain ⟨hmem2, hval2, -⟩ := hat
          rw [show search (buildResult L f) a' b' = searchFold
              (scalarDist (buildResult L f) a' b')
              (List.range' (a' + 1) (b' - (a' + 1))) (0, a') from rfl] at *
          rcases List.mem_range'_1.mp hmem2 with ⟨hm21, hm22⟩
          rw [← hval2]
          exact hub _ (by omega) (by omega)
      · rw [← hattain]
        exact search_le_of_interior (buildResult L f) a' b' p hpa hpb
    have hRpos : 0 < (search (buildResult L f) a' b').1 := by
      rw [hRfst]
      exact lt_of_le_of_lt hτ hgt
    have hRsnd : (search (buildResult L f) a' b').2 = p := by
      refine le_antisymm ?_ ?_
      · exact search_snd_least (buildResult L f) a' b' p hpa hpb
          (hattain.trans hRfst.symm) hRpos
      · obtain ⟨hq1, hq2, hqd⟩ :=
          search_mem_of_pos (buildResult L f) a' b' hRpos
        have hdL : scalarDist L (kidx L f a') (kidx L f b')
            (kidx L f (search (buildResult L f) a' b').2) =
            (search L (kidx L f a') (kidx L f b')).1 := by
          rw [← hcand _ hq1 hq2, hqd, hRfst]
        have hmle := search_snd_least L (kidx L f a') (kidx L f b') _
          (kidx_strict_mono L f a' _ hq1 (lt_trans hq2 hblen))
          (kidx_strict_mono L f _ b' hq2 hblen) hdL
          (lt_of_le_of_lt hτ hgt)
        by_contra hcon
        push_neg at hcon
        have hlt2 := kidx_strict_mono L f _ p hcon hp
        rw [hkp] at hlt2
        omega
    have hb'a : ¬ b' ≤ a' + 1 := by omega
    obtain ⟨g', hg'⟩ : ∃ g', b' - a' = g' + 1 := ⟨b' - a' - 1, by omega⟩
    rw [hg']
    simp only [dpKeptSet]
    rw [if_neg hb'a, if_pos (show (search (buildResult L f) a' b').1 > τ by
      rw [hRfst]; exact hgt), hRsnd]
    have hgm : dpKeptSet g L (kidx L f a')
        (search L (kidx L f a') (kidx L f b')).2 τ =
        dpKeptSet ((search L (kidx L f a') (kidx L f b')).2 - kidx L f a') L
          (kidx L f a') (search L (kidx L f a') (kidx L f b')).2 τ :=
      dpKeptSet_fuel_congr L τ hτ g _ _ _ (by omega) (by omega)
    have hgm2 : dpKeptSet g L (search L (kidx L f a') (kidx L f b')).2
        (kidx L f b') τ =
        dpKeptSet (kidx L f b' - (search L (kidx L f a') (kidx L f b')).2) L
          (search L (kidx L f a') (kidx L f b')).2 (kidx L f b') τ :=
      dpKeptSet_fuel_congr L τ hτ g _ _ _ (by omega) (by omega)
    rw [hgm, hgm2] at hcS
    rcases Finset.mem_union.mp hcS with hcS2 | hcS2
    · rcases Finset.mem_union.mp hcS2 with hcS3 | hcS3
      · have heq : kidx L f j' = (search L (kidx L f a') (kidx L f b')).2 :=
          Finset.mem_singleton.mp hcS3
        have hjp : j' = p := kidx_inj L f j' p hjlen hp (by rw [heq, hkp])
        exact Finset.mem_union_left _ (Finset.mem_union_left _
          (Finset.mem_singleton.mpr hjp))
      · -- the kept point lies in the left sub-chord
        have hint := dpKeptSet_subset_interior L τ hτ _ _ _ _ hcS3
        have Hset2 : ∀ k, (k ∈ (List.range L.size).filter f ∧
            kidx L f a' < k ∧ k < kidx L f p) ↔
            k ∈ dpKeptSet (kidx L f p - kidx L f a') L (kidx L f a')
              (kidx L f p) τ := by
          intro k
          rw [hkp]
          constructor
          · rintro ⟨hk1, hk2, hk3⟩
            have hkS : k ∈ dpKeptSet (kidx L f b' - kidx L f a') L
                (kidx L f a') (kidx L f b') τ :=
              (Hset k).mp ⟨hk1, hk2, lt_trans hk3 hm2⟩
            rw [hg] at hkS
            simp only [dpKeptSet] at hkS
            rw [if_neg hne, if_pos hgt, hgm, hgm2] at hkS
            rcases Finset.mem_union.mp hkS with hkS2 | hkS2
            · rcases Finset.mem_union.mp hkS2 with hkS3 | hkS3
              · rw [Finset.mem_singleton.mp hkS3] at hk3
                exact absurd hk3 (lt_irrefl _)
              · exact hkS3
            · have := dpKeptSet_subset_interior L τ hτ _ _ _ _ hkS2
              omega
          · intro hkS
            have hint2 := dpKeptSet_subset_interior L τ hτ _ _ _ _ hkS
            have hkSL : k ∈ dpKeptSet (kidx L f b' - kidx L f a') L
                (kidx L f a') (kidx L f b') τ := by
              rw [hg]
              simp only [dpKeptSet]
              rw [if_neg hne, if_pos hgt, hgm, hgm2]
              exact Finset.mem_union_left _ (Finset.mem_union_right _ hkS)
            exact ⟨((Hset k).mpr hkSL).1, hint2.1, hint2.2⟩
        have hjp : j' < p := kidx_reflect L f j' p hjlen hp
          (by rw [hkp]; exact hint.2)
        have hj'S := ih a' p (by omega) hpa hp Hset2 j' hj1 hjp
        have hcg : dpKeptSet (p - a') (buildResult L f) a' p τ =
            dpKeptSet g' (buildResult L f) a' p τ :=
          dpKeptSet_fuel_congr (buildResult L f) τ hτ _ g' a' p le_rfl
            (by omega)
        exact Finset.mem_union_left _ (Finset.mem_union_right _
          (hcg ▸ hj'S))
    · -- the kept point lies in the right sub-chord
      have hint := dpKeptSet_subset_interior L τ hτ _ _ _ _ hcS2
      have Hset3 : ∀ k, (k ∈ (List.range L.size).filter f ∧
          kidx L f p < k ∧ k < kidx L f b') ↔
          k ∈ dpKeptSet (kidx L f b' - kidx L f p) L (kidx L f p)
            (kidx L f b') τ := by
        intro k
        rw [hkp]
        constructor
        · rintro ⟨hk1, hk2, hk3⟩
          have hkS : k ∈ dpKeptSet (kidx L f b' - kidx L f a') L
              (kidx L f a') (kidx L f b') τ :=
            (Hset k).mp ⟨hk1, lt_trans hm1 hk2, hk3⟩
          rw [hg] at hkS
          simp only [dpKeptSet] at hkS
          rw [if_neg hne, if_pos hgt, hgm, hgm2] at hkS
          rcases Finset.mem_union.mp hkS with hkS2 | hkS2
          · rcases Finset.mem_union.mp hkS2 with hkS3 | hkS3
            · rw [Finset.mem_singleton.mp hkS3] at hk2
              exact absurd hk2 (lt_irrefl _)
            · have := dpKeptSet_subset_interior L τ hτ _ _ _ _ hkS3
              omega
          · exact hkS2
        · intro hkS
          have hint2 := dpKeptSet_subset_interior L τ hτ _ _ _ _ hkS
          have hkSL : k ∈ dpKeptSet (kidx L f b' - kidx L f a') L
              (kidx L f a') (kidx L f b') τ := by
            rw [hg]
            simp only [dpKeptSet]
            rw [if_neg hne, if_pos hgt, hgm, hgm2]
            exact Finset.mem_union_right _ hkS
          exact ⟨((Hset k).mpr hkSL).1, hint2.1, hint2.2⟩
      have hjp : p < j' := kidx_reflect L f p j' hp hjlen
        (by rw [hkp]; exact hint.1)
      have hj'S := ih p b' (by omega) hpb hblen Hset3 j' hjp hj2
      have hcg : dpKeptSet (b' - p) (buildResult L f) p b' τ =
          dpKeptSet g' (buildResult L f) p b' τ :=
        dpKeptSet_fuel_congr (buildResult L f) τ hτ _ g' p b' le_rfl
          (by omega)
      exact Finset.mem_union_right _ (hcg ▸ hj'S)

/-- A second Douglas-Peucker pass over the built result marks every
position: the endpoints by initialization, the interior positions by the
simulation lemma applied to the top-level chord. -/
theorem pass2_keep_all (L : PolylineSoA) (t : ℚ) (f : ℕ → Bool)
    (hn3 : 3 ≤ L.size)
    (hf : ∀ i, f i = (initKeep L.size i ||
      decide (i ∈ dpKeptSet (L.size - 1) L 0 (L.size - 1) (t * t))))
    (hN3 : 3 ≤ ((List.range L.size).filter f).length) :
    ∀ i, i < ((List.range L.size).filter f).length →
      douglas_peucker_recursive (((List.range L.size).filter f).length - 1)
        (buildResult L f) 0 (((List.range L.size).filter f).length - 1)
        (t * t) (initKeep ((List.range L.size).filter f).length) i = true := by
  intro i hi
  rw [douglas_peucker_recursive_eq, Bool.or_eq_true_iff]
  by_cases hi0 : i = 0
  · exact Or.inl (by simp [initKeep, hi0])
  by_cases hil : i = ((List.range L.size).filter f).length - 1
  · exact Or.inl (by simp [initKeep, hil])
  refine Or.inr (decide_eq_true ?_)
  have hf0 : f 0 = true := by
    rw [hf]
    simp [initKeep]
  have hfl : f (L.size - 1) = true := by
    rw [hf]
    simp [initKeep]
  have hk0 := kidx_zero L f hf0 (by omega)
  have hkl := kidx_last L f hf0 hfl (by omega)
  refine dp_sim L (t * t) (mul_self_nonneg t) f
    (((List.range L.size).filter f).length - 1) 0
    (((List.range L.size).filter f).length - 1) le_rfl (by omega) (by omega)
    ?_ i (by omega) (by omega)
  intro k
  rw [hk0, hkl, Nat.sub_zero]
  constructor
  · rintro ⟨hk1, hk2, hk3⟩
    have hfk := (List.mem_filter.mp hk1).2
    rw [hf] at hfk
    rcases Bool.or_eq_true_iff.mp hfk with hini | hs
    · simp only [initKeep, Bool.or_eq_true_iff, decide_eq_true_eq] at hini
      omega
    · exact of_decide_eq_true hs
  · intro hkS
    have hint := dpKeptSet_subset_interior L (t * t) (mul_self_nonneg t)
      _ _ _ _ hkS
    refine ⟨List.mem_filter.mpr ⟨List.mem_range.mpr (by omega), ?_⟩,
      hint.1, hint.2⟩
    rw [hf, Bool.or_eq_true_iff]
    exact Or.inr (decide_eq_true hkS)

/-- Claim C6 (confirmed): simplification is idempotent — running the scalar
Douglas-Peucker simplification a second time with the same tolerance
returns the first result unchanged. -/
theorem C6_simplify_scalar_idempotent (L : PolylineSoA) (t : ℚ)
    (ht : 0 < t) :
    simplify_scalar (simplify_scalar L t) t = simplify_scalar L t := by
  by_cases hn : L.size ≤ 2
  · have h1 : simplify_scalar L t = L := by rw [simplify_scalar, if_pos hn]
    rw [h1]
    exact h1
  · have hRdef : simplify_scalar L t = buildResult L
        (douglas_peucker_recursive (L.size - 1) L 0 (L.size - 1) (t * t)
          (initKeep L.size)) := by
      rw [simplify_scalar, if_neg hn]
    by_cases hN : (simplify_scalar L t).size ≤ 2
    · rw [simplify_scalar, if_pos hN]
    · have hn3 : 3 ≤ L.size := by omega
      have hlen_eq : (simplify_scalar L t).size =
          ((List.range L.size).filter
            (douglas_peucker_recursive (L.size - 1) L 0 (L.size - 1) (t * t)
              (initKeep L.size))).length := by
        rw [hRdef, buildResult_size]
      have hN3 : 3 ≤ ((List.range L.size).filter
          (douglas_peucker_recursive (L.size - 1) L 0 (L.size - 1) (t * t)
            (initKeep L.size))).length := by
        rw [← hlen_eq]
        omega
      rw [simplify_scalar, if_neg hN]
      show buildResult (simplify_scalar L t)
          (douglas_peucker_recursive ((simplify_scalar L t).size - 1)
            (simplify_scalar L t) 0 ((simplify_scalar L t).size - 1) (t * t)
            (initKeep (simplify_scalar L t).size)) = simplify_scalar L t
      rw [hRdef, buildResult_size]
      refine buildResult_of_all_true _ (buildResult_y_length L _) _ ?_
      intro i hi
      rw [buildResult_size] at hi
      exact pass2_keep_all L t _ hn3
        (douglas_peucker_recursive_eq (L.size - 1) L 0 (L.size - 1) (t * t)
          (initKeep L.size)) hN3 i hi

/-- Witness for C6 at a concrete five-point polyline and tolerance `1/2`. -/
theorem C6_simplify_scalar_idempotent_witness :
    (0 : ℚ) < 1 / 2 ∧
      simplify_scalar (simplify_scalar (PolylineSoA.ofPoints
        [(0, 0), (1, 1), (2, 0), (3, 1), (4, 0)]) (1 / 2)) (1 / 2) =
      simplify_scalar (PolylineSoA.ofPoints
        [(0, 0), (1, 1), (2, 0), (3, 1), (4, 0)]) (1 / 2) :=
  ⟨by norm_num,
    C6_simplify_scalar_idempotent
      (PolylineSoA.ofPoints [(0, 0), (1, 1), (2, 0), (3, 1), (4, 0)])
      (1 / 2) (by norm_num)⟩

end GeomSimd


